import Mathlib

/-!
# INI parser (`Parser/Parser/main.cpp`): shallow embedding and verified properties

`std::string` values are modelled as lists of characters, thrown exceptions as
`Except.error`, and `std::map` as a key-unique association list.  The class
`IniParser` lives in the namespace `IniParser` below; the free function `trim`
and the standard-library routines it relies on come first.
-/

set_option autoImplicit false

/-- A `std::string`, as the list of its characters. -/
abbrev Str := List Char

/-! ## `std::string` member functions used by the program -/

/-- Member `str.find_first_not_of(chars)`: index of the first character of `str`
that is not in `chars`; `none` stands for `string::npos`. -/
def find_first_not_of : Str → Str → Option Nat
  | [], _ => none
  | c :: cs, chars =>
    if c ∈ chars then (find_first_not_of cs chars).map (· + 1) else some 0

/-- Member `str.find_last_not_of(chars)`: index of the last character of `str`
that is not in `chars`; `none` stands for `string::npos`. -/
def find_last_not_of : Str → Str → Option Nat
  | [], _ => none
  | c :: cs, chars =>
    match find_last_not_of cs chars with
    | some i => some (i + 1)
    | none => if c ∈ chars then none else some 0

/-- Member `str.find(ch)`: index of the first occurrence of `ch`; `none` stands
for `string::npos`. -/
def find : Str → Char → Option Nat
  | [], _ => none
  | c :: cs, ch => if c = ch then some 0 else (find cs ch).map (· + 1)

/-- Member `str.substr(pos, count)`.  Every call site of the program has
`pos ≤ str.length`, so the `std::out_of_range` case of the library routine is
never reached. -/
def substr (str : Str) (pos count : Nat) : Str := (str.drop pos).take count

/-- Member `str.substr(pos)` (to the end of the string), again with
`pos ≤ str.length` at its only call site. -/
def substr_from (str : Str) (pos : Nat) : Str := str.drop pos

/-- The free function `trim` (main.cpp, lines 12-20). -/
def trim (str : Str) : Str :=
  let start := find_first_not_of str " \t".toList
  let last := find_last_not_of str " \t".toList
  match start, last with
  | some s, some e => substr str s (e - s + 1)
  | _, _ => []

/-! ## Exceptions -/

/-- The exceptions that can leave the parser: its own `IniParserError`, which
carries the message passed to `runtime_error`, and the two exceptions thrown by
`std::stoi` / `std::stod`. -/
inductive Error where
  | IniParserError (message : Str)
  | invalid_argument
  | out_of_range
  deriving DecidableEq, Repr

deriving instance DecidableEq for Except

/-! ## `std::map` -/

/-- A `std::map<string, V>`: an association list with pairwise distinct keys. -/
abbrev StrMap (V : Type) := List (Str × V)

/-- Member `m.find(key)`; `none` stands for `m.end()`. -/
def StrMap.find {V : Type} : StrMap V → Str → Option V
  | [], _ => none
  | (k, v) :: rest, key => if k = key then some v else StrMap.find rest key

/-- The assignment `m[key] = v`: overwrite the entry of `key`, or create it. -/
def StrMap.assign {V : Type} : StrMap V → Str → V → StrMap V
  | [], key, v => [(key, v)]
  | (k, w) :: rest, key, v =>
    if k = key then (k, v) :: rest else (k, w) :: StrMap.assign rest key v

/-- The member `data` of `IniParser`: section name to (key to raw value). -/
abbrev Data := StrMap (StrMap Str)

/-- The statement `data[current_section][key] = value`: `operator[]` creates
the section when it is absent, then the key is overwritten or created. -/
def Data.store (data : Data) (current_section key value : Str) : Data :=
  StrMap.assign data current_section
    (StrMap.assign ((StrMap.find data current_section).getD []) key value)

/-! ## `IniParser::parse_file` -/

/-- The local variables of `parse_file` that live across loop iterations,
together with the member `data`. -/
structure ParseState where
  data : Data
  current_section : Str
  deriving DecidableEq, Repr

/-- State on entry of `parse_file`: an empty map and an empty
`current_section`. -/
def ParseState.init : ParseState := ⟨[], []⟩

/-- The lines `while (getline(file, line))` yields for a file of the given
content: the text is cut at each newline character and the extraction at the
end of the file fails when no character is left. -/
def getlinesAux : Str → Str → List Str
  | acc, [] => if acc = [] then [] else [acc.reverse]
  | acc, c :: cs =>
    if c = '\n' then acc.reverse :: getlinesAux [] cs else getlinesAux (c :: acc) cs

/-- All lines read from a file of content `text`. -/
def getlines (text : Str) : List Str := getlinesAux [] text

namespace IniParser

/-- One iteration of the loop body of `parse_file` (main.cpp, lines 60-82) on
the line just read. -/
def parse_line (st : ParseState) (raw : Str) : Except Error ParseState :=
  let line := trim raw
  if line.isEmpty || line.head? == some ';' then
    .ok st
  else if line.head? == some '[' && line.getLast? == some ']' then
    .ok { st with current_section := trim (substr line 1 (line.length - 2)) }
  else
    match find line '=' with
    | none => .error (.IniParserError ("Syntax error: ".toList ++ line))
    | some pos =>
      let key := trim (substr line 0 pos)
      let value := trim (substr_from line (pos + 1))
      if st.current_section.isEmpty then
        .error (.IniParserError "Key-value pair found outside of any section".toList)
      else
        .ok { st with data := Data.store st.data st.current_section key value }

/-- The loop of `parse_file` over the lines of the file, from a given state;
an exception ends it. -/
def parse_lines_from : ParseState → List Str → Except Error ParseState
  | st, [] => .ok st
  | st, raw :: rest =>
    match parse_line st raw with
    | .error e => .error e
    | .ok st1 => parse_lines_from st1 rest

/-- The function `parse_file` on the lines of the file: the constructed `data`, or
the exception thrown. -/
def parse_lines (lines : List Str) : Except Error Data :=
  match parse_lines_from ParseState.init lines with
  | .error e => .error e
  | .ok st => .ok st.data

/-- The function `parse_file` on the content of an opened file. -/
def parse_file (text : Str) : Except Error Data := parse_lines (getlines text)

end IniParser

/-! ## Standard-library conversions: `std::stoi` and `std::stod` -/

/-- The C classification `isspace` in the default locale. -/
def isspace (c : Char) : Bool :=
  c = ' ' || c = '\t' || c = '\n' || c = '\x0b' || c = '\x0c' || c = '\r'

/-- The C classification `isdigit`. -/
def isdigit (c : Char) : Bool := '0'.toNat ≤ c.toNat && c.toNat ≤ '9'.toNat

/-- Value of one decimal digit. -/
def digitVal (c : Char) : Nat := c.toNat - '0'.toNat

/-- Value of a sequence of decimal digits, most significant first. -/
def decimalValue (digits : Str) : Nat :=
  digits.foldl (fun acc c => 10 * acc + digitVal c) 0

/-- Least value of the type `int`. -/
def INT_MIN : Int := -2147483648

/-- Greatest value of the type `int`. -/
def INT_MAX : Int := 2147483647

/-- The call `std::stoi(str, &processed)` (base 10), which wraps `strtol`:
leading white space is skipped, an optional sign and the longest run of decimal
digits are read.  It throws `std::invalid_argument` when no digit is read and
`std::out_of_range` when the number does not fit an `int`; otherwise it gives
the number and the count of characters consumed. -/
def stoi (str : Str) : Except Error (Int × Nat) :=
  let s1 := str.dropWhile isspace
  let neg := s1.head? == some '-'
  let s2 := if s1.head? == some '-' || s1.head? == some '+' then s1.tail else s1
  let digits := s2.takeWhile isdigit
  if digits.isEmpty then
    .error .invalid_argument
  else
    let n : Int := if neg then -(decimalValue digits : Int) else (decimalValue digits : Int)
    if n < INT_MIN || INT_MAX < n then
      .error .out_of_range
    else
      .ok (n, (str.length - s2.length) + digits.length)

/-- What the C routine `strtod` reports: the converted value, the count of
characters consumed (zero when no conversion is performed) and whether it set
`errno` to `ERANGE`. -/
structure StrtodResult (F : Type) where
  value : F
  consumed : Nat
  erange : Bool

/-- The call `std::stod(str, &processed)`, which wraps `strtod`: it throws
`std::invalid_argument` when no conversion is performed and
`std::out_of_range` on a range error. -/
def stod {F : Type} (strtod : Str → StrtodResult F) (str : Str) : Except Error (F × Nat) :=
  let r := strtod str
  if r.consumed = 0 then
    .error .invalid_argument
  else if r.erange then
    .error .out_of_range
  else
    .ok (r.value, r.consumed)

/-- The algorithm `std::replace(first, last, old_value, new_value)` on a whole
string. -/
def replace (s : Str) (old_value new_value : Char) : Str :=
  s.map (fun c => if c = old_value then new_value else c)

/-! ## `IniParser::get_value` and `IniParser::convert_value` -/

/-- The three types `T` for which `convert_value<T>` compiles. -/
inductive Ty where
  | int
  | double
  | string
  deriving DecidableEq, Repr

/-- The C++ type denoted by `T`, for a representation `F` of `double`. -/
abbrev Ty.denote (F : Type) : Ty → Type
  | .int => Int
  | .double => F
  | .string => Str

namespace IniParser

/-- The member template `convert_value<T>` (main.cpp, lines 87-113). -/
def convert_value {F : Type} (strtod : Str → StrtodResult F) (T : Ty) (value : Str) :
    Except Error (T.denote F) :=
  match T with
  | .int =>
    match stoi value with
    | .error e => .error e
    | .ok (result, processed) =>
      if processed ≠ value.length then
        .error (.IniParserError ("Invalid integer format: ".toList ++ value))
      else
        .ok result
  | .double =>
    let normalized_value := replace value ',' '.'
    match stod strtod normalized_value with
    | .error e => .error e
    | .ok (result, processed) =>
      if processed ≠ normalized_value.length then
        .error (.IniParserError ("Invalid double format: ".toList ++ value))
      else
        .ok result
  | .string => .ok value

/-- The member template `get_value<T>` (main.cpp, lines 37-50). -/
def get_value {F : Type} (strtod : Str → StrtodResult F) (data : Data) (T : Ty)
    («section» key : Str) : Except Error (T.denote F) :=
  match StrMap.find data «section» with
  | none => .error (.IniParserError ("Section not found: ".toList ++ «section»))
  | some keys =>
    match StrMap.find keys key with
    | none => .error (.IniParserError ("Key not found: ".toList ++ key))
    | some raw => convert_value strtod T raw

end IniParser

/-! ## The input format, read from the specification

These definitions follow the wording of the format description; the theorems
below compare them with what `parse_file` does. -/

/-- A trimmed line is skipped when it is empty or starts with the comment
marker. -/
def isBlankOrComment (t : Str) : Bool := t.isEmpty || t.head? == some ';'

/-- A trimmed line is a section header when it starts with an opening bracket and
ends with a closing bracket. -/
def isHeader (t : Str) : Bool := t.head? == some '[' && t.getLast? == some ']'

/-- Name of a header line: the trimmed text strictly between its first and its
last character. -/
def headerName (t : Str) : Str := trim t.tail.dropLast

/-- A trimmed line is a pair line when it is not blank, not a comment, not a
header, and contains the separator. -/
def isPairLine (t : Str) : Bool :=
  !isBlankOrComment t && !isHeader t && decide ('=' ∈ t)

/-- Key of a pair line: the trimmed text before the first separator. -/
def pairKey (t : Str) : Str := trim (t.takeWhile (fun c => c != '='))

/-- Value of a pair line: the trimmed text after the first separator. -/
def pairValue (t : Str) : Str := trim ((t.dropWhile (fun c => c != '=')).drop 1)

/-- Name of the most recent header line among the lines read so far, if there
is one. -/
def governingHeader (before : List Str) : Option Str :=
  before.foldl
    (fun g raw => if isHeader (trim raw) then some (headerName (trim raw)) else g) none

/-- The raw line `raw`, read after the lines `before`, is a pair line that
defines key `k` in section `s`. -/
def definesKey (s k : Str) (before : List Str) (raw : Str) : Prop :=
  isPairLine (trim raw) = true ∧ pairKey (trim raw) = k ∧ governingHeader before = some s

/-- The raw value stored for a key of a section, if any. -/
def Data.raw (data : Data) (s k : Str) : Option Str :=
  (StrMap.find data s).bind (fun keys => StrMap.find keys k)

instance (s k : Str) (before : List Str) (raw : Str) : Decidable (definesKey s k before raw) :=
  inferInstanceAs (Decidable (_ ∧ _ ∧ _))

/-- A `strtod` that never converts anything, for statements in which no
floating-point value is read. -/
def strtod_none : Str → StrtodResult Unit := fun _ => ⟨(), 0, false⟩

/-- Decimal rendering of an integer: a minus sign for a negative number, then
the decimal digits of its magnitude. -/
def decimalRendering (n : Int) : Str := (toString n).toList

/-- The number written by an optional sign followed by decimal digits. -/
def literalValue (sign digits : Str) : Int :=
  if sign = ['-'] then -(decimalValue digits : Int) else (decimalValue digits : Int)

/-- The pair line `k = v` for a given value text `v`. -/
def pairLineK (v : Str) : Str := "k = ".toList ++ v

/-! ## The C routine `strtod`

`std::stod` hands the text to `strtod`.  Which characters `strtod` consumes is
fixed by the C standard and is modelled in full; the rounding of the exact
value to a `double` is left to a parameter, except for the overflow threshold
of the binary64 format. -/

/-- What the model leaves open about `double` arithmetic: rounding of an
in-range rational, negation, the infinity, the NaN made from a character
sequence, and the implementation-defined choice of reporting `ERANGE` for a
tiny non-zero result. -/
structure FloatModel (F : Type) where
  round : ℚ → F
  neg : F → F
  inf : F
  nan : Str → F
  underflow_erange : ℚ → Bool

/-- The C classification `isxdigit`. -/
def isxdigit (c : Char) : Bool :=
  isdigit c || ('a'.toNat ≤ c.toNat && c.toNat ≤ 'f'.toNat) ||
    ('A'.toNat ≤ c.toNat && c.toNat ≤ 'F'.toNat)

/-- The C function `tolower` on the letters of the basic character set. -/
def tolower (c : Char) : Char :=
  if 'A'.toNat ≤ c.toNat && c.toNat ≤ 'Z'.toNat then Char.ofNat (c.toNat + 32) else c

/-- Value of one hexadecimal digit. -/
def xdigitVal (c : Char) : Nat :=
  if isdigit c then c.toNat - '0'.toNat else (tolower c).toNat - 'a'.toNat + 10

/-- Value of a sequence of hexadecimal digits, most significant first. -/
def hexValue (digits : Str) : Nat :=
  digits.foldl (fun acc c => 16 * acc + xdigitVal c) 0

/-- A non-empty sequence of digits optionally containing one radix character:
the digits before it, the digits after it, and the count of characters read;
`none` when there is no digit at all. -/
def scanMantissa (isd : Char → Bool) (s : Str) : Option (Str × Str × Nat) :=
  let ip := s.takeWhile isd
  match s.dropWhile isd with
  | '.' :: r =>
    let fp := r.takeWhile isd
    if ip.isEmpty && fp.isEmpty then none else some (ip, fp, ip.length + 1 + fp.length)
  | _ => if ip.isEmpty then none else some (ip, [], ip.length)

/-- An optional exponent part: the marker letter in either case, an optional
sign and a non-empty run of decimal digits.  Gives the exponent and the count
of characters read, both zero when there is no exponent part. -/
def scanExponent (marker : Char) (s : Str) : Int × Nat :=
  match s with
  | [] => (0, 0)
  | c :: r =>
    if tolower c = marker then
      let neg := r.head? == some '-'
      let r2 := if r.head? == some '-' || r.head? == some '+' then r.tail else r
      let ds := r2.takeWhile isdigit
      if ds.isEmpty then (0, 0)
      else
        (if neg then -(decimalValue ds : Int) else (decimalValue ds : Int),
          1 + (r.length - r2.length) + ds.length)
    else (0, 0)

/-- What the subject sequence of `strtod` denotes, sign apart. -/
inductive Literal where
  | finite (q : ℚ)
  | infinity
  | nan (chars : Str)

/-- A hexadecimal floating constant after the sign. -/
def scanHex (s : Str) : Option (Literal × Nat) :=
  match s with
  | '0' :: x :: r =>
    if tolower x = 'x' then
      match scanMantissa isxdigit r with
      | some (ip, fp, n) =>
        let em := scanExponent 'p' (r.drop n)
        some (.finite ((hexValue (ip ++ fp) : ℚ) * 2 ^ (em.1 - 4 * (fp.length : Int))),
          2 + n + em.2)
      | none => none
    else none
  | _ => none

/-- A decimal floating constant after the sign. -/
def scanDecimal (s : Str) : Option (Literal × Nat) :=
  match scanMantissa isdigit s with
  | some (ip, fp, n) =>
    let em := scanExponent 'e' (s.drop n)
    some (.finite ((decimalValue (ip ++ fp) : ℚ) * 10 ^ (em.1 - (fp.length : Int))), n + em.2)
  | none => none

/-- The characters allowed between the parentheses of `NAN(...)`. -/
def isNChar (c : Char) : Bool :=
  isdigit c || c = '_' || ('a'.toNat ≤ (tolower c).toNat && (tolower c).toNat ≤ 'z'.toNat)

/-- The forms `INF`, `INFINITY`, `NAN` and `NAN(n-char-sequence)`, in any case. -/
def scanSpecial (s : Str) : Option (Literal × Nat) :=
  if (s.take 8).map tolower = "infinity".toList then some (.infinity, 8)
  else if (s.take 3).map tolower = "inf".toList then some (.infinity, 3)
  else if (s.take 3).map tolower = "nan".toList then
    match s.drop 3 with
    | '(' :: r =>
      let cs := r.takeWhile isNChar
      if (r.drop cs.length).head? == some ')' then some (.nan cs, 3 + 1 + cs.length + 1)
      else some (.nan [], 3)
    | _ => some (.nan [], 3)
  else none

/-- The longest initial part of `s` that has one of the expected forms. -/
def scanLiteral (s : Str) : Option (Literal × Nat) :=
  match scanHex s with
  | some r => some r
  | none =>
    match scanDecimal s with
    | some r => some r
    | none => scanSpecial s

/-- Magnitudes from here on round to infinity in binary64 (the greatest finite
value plus half a unit in the last place). -/
def DBL_OVERFLOW : ℚ := 2 ^ 1024 - 2 ^ 970

/-- Least positive normalized binary64 value. -/
def DBL_MIN : ℚ := 1 / 2 ^ 1022

/-- Whether `strtod` sets `errno` to `ERANGE` for a literal of exact magnitude
`q`: always on overflow, and on underflow as the implementation chooses. -/
def rangeError {F : Type} (M : FloatModel F) (q : ℚ) : Bool :=
  decide (DBL_OVERFLOW ≤ q) || (decide (0 < q ∧ q < DBL_MIN) && M.underflow_erange q)

/-- The C routine `strtod` in the default locale: white space, an optional
sign, then the longest literal. -/
def strtod_c {F : Type} (M : FloatModel F) (str : Str) : StrtodResult F :=
  let s1 := str.dropWhile isspace
  let neg := s1.head? == some '-'
  let s2 := if s1.head? == some '-' || s1.head? == some '+' then s1.tail else s1
  let sgn : F → F := fun x => if neg then M.neg x else x
  match scanLiteral s2 with
  | none => ⟨M.round 0, 0, false⟩
  | some (lit, n) =>
    let consumed := (str.length - s2.length) + n
    match lit with
    | .infinity => ⟨sgn M.inf, consumed, false⟩
    | .nan cs => ⟨sgn (M.nan cs), consumed, false⟩
    | .finite q =>
      ⟨sgn (if DBL_OVERFLOW ≤ q then M.inf else M.round q), consumed, rangeError M q⟩

/-- A float model with exact arithmetic: finite values are rationals, `none`
stands for the infinities and NaN. -/
def exactModel : FloatModel (Option ℚ) :=
  ⟨fun q => some q, fun x => x.map (fun q => -q), none, fun _ => none, fun _ => true⟩

/-- Exact value of the decimal literal `d1.d2`. -/
def pointValue (d1 d2 : Str) : ℚ :=
  (decimalValue (d1 ++ d2) : ℚ) * 10 ^ ((0 : Int) - (d2.length : Int))

/-! ## Vocabulary of the later claims -/

/-- The two characters that `trim` removes: the space and the tab. -/
def isBlank (c : Char) : Bool := c = ' ' || c = '\t'

/-- A string with its longest prefix and its longest suffix of spaces and tabs
removed. -/
def stripBlanks (s : Str) : Str :=
  ((s.dropWhile isBlank).reverse.dropWhile isBlank).reverse

/-- Whether the lines read so far contain a header and the most recent one has
a non-empty trimmed name. -/
def insideNamedSection (before : List Str) : Bool :=
  match governingHeader before with
  | some name => !name.isEmpty
  | none => false

/-- The raw line `raw`, read after the lines `before`, is a pair line governed
by a header of trimmed name `s`. -/
def pairUnder (s : Str) (before : List Str) (raw : Str) : Prop :=
  isPairLine (trim raw) = true ∧ governingHeader before = some s

instance (s : Str) (before : List Str) (raw : Str) : Decidable (pairUnder s before raw) :=
  inferInstanceAs (Decidable (_ ∧ _))

/-- The message of the error thrown for a pair line outside of any section. -/
def outsideSectionMessage : Str := "Key-value pair found outside of any section".toList

/-- The text `raw` is white space accepted by `stoi`, an optional sign and one
or more decimal digits that denote `n`, and nothing else. -/
def isSpacedIntLiteral (raw : Str) (n : Int) : Prop :=
  ∃ ws sign digits, raw = ws ++ sign ++ digits ∧ (∀ c ∈ ws, isspace c = true) ∧
    (sign = [] ∨ sign = ['-'] ∨ sign = ['+']) ∧ digits ≠ [] ∧
    (∀ d ∈ digits, isdigit d = true) ∧ literalValue sign digits = n

/-- The raw line `raw`, read after the lines `before`, is one that `parse_file`
gets past: it is blank, a comment or a header, or it contains the separator
and is read inside a section with a non-empty name. -/
def lineAccepted (before : List Str) (raw : Str) : Prop :=
  isBlankOrComment (trim raw) = false → isHeader (trim raw) = false →
    ('=' ∈ trim raw ∧ insideNamedSection before = true)

instance (before : List Str) (raw : Str) : Decidable (lineAccepted before raw) :=
  inferInstanceAs (Decidable (_ → _ → _ ∧ _))

/-! ## Auxiliary facts -/

theorem StrMap.find_assign {V : Type} (m : StrMap V) (key : Str) (v : V) (key2 : Str) :
    StrMap.find (StrMap.assign m key v) key2 =
      if key = key2 then some v else StrMap.find m key2 := by
  induction m with
  | nil => simp [StrMap.assign, StrMap.find]
  | cons hd tl ih =>
    obtain ⟨k, w⟩ := hd
    by_cases hk : k = key
    · subst hk
      by_cases h2 : k = key2 <;> simp [StrMap.assign, StrMap.find, h2]
    · by_cases h2 : k = key2
      · subst h2
        simp [StrMap.assign, StrMap.find, hk, Ne.symm hk]
      · simp [StrMap.assign, StrMap.find, hk, h2, ih]

theorem Data.raw_store (data : Data) (cur key value s k : Str) :
    Data.raw (Data.store data cur key value) s k =
      if cur = s ∧ key = k then some value else Data.raw data s k := by
  unfold Data.raw Data.store
  rw [StrMap.find_assign]
  by_cases hs : cur = s
  · subst hs
    by_cases hk : key = k
    · simp [hk, StrMap.find_assign]
    · cases hd : StrMap.find data cur <;> simp [hk, StrMap.find_assign, StrMap.find]
  · simp [hs]

theorem find_eq_none_iff (l : Str) (ch : Char) : find l ch = none ↔ ch ∉ l := by
  induction l with
  | nil => simp [find]
  | cons c cs ih =>
    by_cases h : c = ch
    · simp [find, h]
    · simp [find, h, ih, Ne.symm h]

theorem find_eq_some (l : Str) (ch : Char) (pos : Nat) (h : find l ch = some pos) :
    substr l 0 pos = l.takeWhile (fun c => c != ch) ∧
      substr_from l (pos + 1) = (l.dropWhile (fun c => c != ch)).drop 1 := by
  induction l generalizing pos with
  | nil => simp [find] at h
  | cons c cs ih =>
    by_cases hc : c = ch
    · simp only [find, hc, if_true, Option.some.injEq] at h
      subst h
      simp [substr, substr_from, hc, List.takeWhile, List.dropWhile]
    · have hb : (c != ch) = true := by simpa using hc
      simp only [find, hc, if_false, Option.map_eq_some'] at h
      obtain ⟨p, hp, rfl⟩ := h
      obtain ⟨h1, h2⟩ := ih p hp
      simp only [substr, substr_from, List.drop_zero, List.drop_succ_cons,
        List.take_succ_cons] at h1 h2 ⊢
      simp [List.takeWhile, List.dropWhile, hb, h1, h2]

theorem substr_one_eq (line : Str) : substr line 1 (line.length - 2) = line.tail.dropLast := by
  cases line with
  | nil => rfl
  | cons c cs =>
    simp [substr, List.dropLast_eq_take]

/-- The loop body of `parse_file`, case by case in the vocabulary of the format. -/
theorem IniParser.parse_line_eq (st : ParseState) (raw : Str) :
    IniParser.parse_line st raw =
      if isBlankOrComment (trim raw) then .ok st
      else if isHeader (trim raw) then
        .ok { st with current_section := headerName (trim raw) }
      else if '=' ∉ trim raw then
        .error (.IniParserError ("Syntax error: ".toList ++ trim raw))
      else if st.current_section = [] then
        .error (.IniParserError "Key-value pair found outside of any section".toList)
      else
        .ok { st with
          data := Data.store st.data st.current_section (pairKey (trim raw)) (pairValue (trim raw)) } := by
  unfold IniParser.parse_line
  simp only [← isBlankOrComment.eq_1, ← isHeader.eq_1]
  by_cases hb : isBlankOrComment (trim raw) = true
  · simp [hb]
  · by_cases hh : isHeader (trim raw) = true
    · simp [hb, hh, headerName, substr_one_eq]
    · simp only [hb, hh, if_false]
      cases hf : find (trim raw) '=' with
      | none =>
        have := (find_eq_none_iff _ _).1 hf
        simp [this]
      | some pos =>
        have hmem : '=' ∈ trim raw := by
          by_contra hn
          rw [(find_eq_none_iff _ _).2 hn] at hf
          cases hf
        obtain ⟨h1, h2⟩ := find_eq_some _ _ _ hf
        simp [hmem, h1, h2, pairKey, pairValue]

theorem IniParser.parse_lines_from_append (st : ParseState) (a b : List Str) :
    IniParser.parse_lines_from st (a ++ b) =
      match IniParser.parse_lines_from st a with
      | .error e => .error e
      | .ok st1 => IniParser.parse_lines_from st1 b := by
  induction a generalizing st with
  | nil => rfl
  | cons raw rest ih =>
    simp only [List.cons_append, IniParser.parse_lines_from]
    cases IniParser.parse_line st raw with
    | error e => rfl
    | ok st1 => exact ih st1

/-- Splitting a successful run of the loop at one line. -/
theorem IniParser.parse_lines_from_split (st stf : ParseState) (pre : List Str) (raw : Str)
    (post : List Str) (h : IniParser.parse_lines_from st (pre ++ raw :: post) = .ok stf) :
    ∃ st1 st2, IniParser.parse_lines_from st pre = .ok st1 ∧
      IniParser.parse_line st1 raw = .ok st2 ∧
      IniParser.parse_lines_from st2 post = .ok stf := by
  rw [IniParser.parse_lines_from_append] at h
  cases h1 : IniParser.parse_lines_from st pre with
  | error e => rw [h1] at h; cases h
  | ok st1 =>
    rw [h1] at h
    simp only [IniParser.parse_lines_from] at h
    cases h2 : IniParser.parse_line st1 raw with
    | error e => rw [h2] at h; cases h
    | ok st2 =>
      rw [h2] at h
      exact ⟨st1, st2, rfl, h2, h⟩

theorem IniParser.parse_lines_from_snoc (st st1 st2 : ParseState) (pre : List Str) (raw : Str)
    (h1 : IniParser.parse_lines_from st pre = .ok st1)
    (h2 : IniParser.parse_line st1 raw = .ok st2) :
    IniParser.parse_lines_from st (pre ++ [raw]) = .ok st2 := by
  rw [IniParser.parse_lines_from_append, h1]
  simp [IniParser.parse_lines_from, h2]

/-- After any successful run, `current_section` is the name of the most recent
header, or empty when no header was read. -/
theorem IniParser.current_section_eq_aux (g : Option Str) (st st1 : ParseState) (pre : List Str)
    (hg : st.current_section = g.getD [])
    (h : IniParser.parse_lines_from st pre = .ok st1) :
    st1.current_section =
      (pre.foldl (fun g raw => if isHeader (trim raw) then some (headerName (trim raw)) else g)
        g).getD [] := by
  induction pre generalizing g st with
  | nil =>
    simp only [IniParser.parse_lines_from, Except.ok.injEq] at h
    subst h
    simpa using hg
  | cons raw rest ih =>
    simp only [IniParser.parse_lines_from] at h
    cases h2 : IniParser.parse_line st raw with
    | error e => rw [h2] at h; cases h
    | ok st2 =>
      rw [h2] at h
      simp only [List.foldl_cons]
      apply ih _ st2 _ h
      rw [IniParser.parse_line_eq] at h2
      cases hb : isBlankOrComment (trim raw) with
      | true =>
        have hnh : isHeader (trim raw) = false := by
          simp only [isBlankOrComment, Bool.or_eq_true, List.isEmpty_iff, beq_iff_eq] at hb
          rcases hb with hb | hb <;> simp [isHeader, hb]
        simp only [hb, if_true, Except.ok.injEq] at h2
        subst h2
        simpa [hnh] using hg
      | false =>
        cases hh : isHeader (trim raw) with
        | true =>
          simp only [hb, hh, Bool.false_eq_true, if_true, if_false, Except.ok.injEq] at h2
          subst h2
          simp
        | false =>
          simp only [hb, hh, Bool.false_eq_true, if_false] at h2
          split_ifs at h2
          simp only [Except.ok.injEq] at h2
          subst h2
          simpa using hg

theorem IniParser.current_section_eq (st : ParseState) (pre : List Str)
    (h : IniParser.parse_lines_from ParseState.init pre = .ok st) :
    st.current_section = (governingHeader pre).getD [] :=
  IniParser.current_section_eq_aux none ParseState.init st pre rfl h

/-- Effect of one successfully processed line on the stored raw values. -/
theorem IniParser.parse_line_raw (st st2 : ParseState) (raw s k : Str)
    (h : IniParser.parse_line st raw = .ok st2) :
    Data.raw st2.data s k =
      if isPairLine (trim raw) = true ∧ st.current_section = s ∧ pairKey (trim raw) = k then
        some (pairValue (trim raw))
      else Data.raw st.data s k := by
  rw [IniParser.parse_line_eq] at h
  cases hb : isBlankOrComment (trim raw) with
  | true =>
    simp only [hb, if_true, Except.ok.injEq] at h
    subst h
    simp [isPairLine, hb]
  | false =>
    cases hh : isHeader (trim raw) with
    | true =>
      simp only [hb, hh, Bool.false_eq_true, if_true, if_false, Except.ok.injEq] at h
      subst h
      simp [isPairLine, hh]
    | false =>
      simp only [hb, hh, Bool.false_eq_true, if_false] at h
      split_ifs at h with hm hc
      simp only [Except.ok.injEq] at h
      subst h
      have hp : isPairLine (trim raw) = true := by
        simp only [not_not] at hm
        simp [isPairLine, hb, hh, hm]
      simp only [Data.raw_store, hp, true_and]

/-- A pair line is processed successfully only inside a section with a
non-empty name. -/
theorem IniParser.parse_line_pair_section (st st2 : ParseState) (raw : Str)
    (h : IniParser.parse_line st raw = .ok st2) (hp : isPairLine (trim raw) = true) :
    st.current_section ≠ [] := by
  rw [IniParser.parse_line_eq] at h
  simp only [isPairLine, Bool.and_eq_true, Bool.not_eq_true', decide_eq_true_eq] at hp
  obtain ⟨⟨hb, hh⟩, hm⟩ := hp
  simp only [hb, hh, hm, not_true_eq_false, if_false, Bool.false_eq_true] at h
  intro hc
  simp [hc] at h

/-- Lines that do not define key `k` of section `s` leave its raw value alone. -/
theorem IniParser.raw_preserved (s k : Str) (post pre : List Str) (st stf : ParseState)
    (hpre : IniParser.parse_lines_from ParseState.init pre = .ok st)
    (hpost : IniParser.parse_lines_from st post = .ok stf)
    (hno : ∀ mid raw2 post2, post = mid ++ raw2 :: post2 → ¬ definesKey s k (pre ++ mid) raw2) :
    Data.raw stf.data s k = Data.raw st.data s k := by
  induction post generalizing pre st with
  | nil =>
    simp only [IniParser.parse_lines_from, Except.ok.injEq] at hpost
    subst hpost
    rfl
  | cons raw2 rest ih =>
    simp only [IniParser.parse_lines_from] at hpost
    cases h2 : IniParser.parse_line st raw2 with
    | error e => rw [h2] at hpost; cases hpost
    | ok st2 =>
      rw [h2] at hpost
      have hsnoc := IniParser.parse_lines_from_snoc _ _ _ pre raw2 hpre h2
      have hrest := ih (pre ++ [raw2]) st2 hsnoc hpost (by
        intro mid r p2 hsplit
        have := hno (raw2 :: mid) r p2 (by simp [hsplit])
        simpa using this)
      rw [hrest, IniParser.parse_line_raw st st2 raw2 s k h2]
      have hnd := hno [] raw2 rest rfl
      simp only [List.append_nil] at hnd
      split_ifs with hc
      · exfalso
        apply hnd
        refine ⟨hc.1, hc.2.2, ?_⟩
        have hcur := IniParser.current_section_eq st pre hpre
        have hne := IniParser.parse_line_pair_section st st2 raw2 h2 hc.1
        cases hg : governingHeader pre with
        | none => rw [hg] at hcur; exact absurd hcur hne
        | some g =>
          rw [hg] at hcur
          simp only [Option.getD_some] at hcur
          rw [← hcur, hc.2.1]
      · rfl

theorem IniParser.get_value_string_of_raw {F : Type} (strtod : Str → StrtodResult F)
    (data : Data) (s k v : Str) (h : Data.raw data s k = some v) :
    IniParser.get_value strtod data .string s k = .ok v := by
  unfold Data.raw at h
  unfold IniParser.get_value
  cases hs : StrMap.find data s with
  | none => simp [hs] at h
  | some keys =>
    have hk : StrMap.find keys k = some v := by simpa [hs] using h
    simp [hk, IniParser.convert_value]

theorem IniParser.parse_lines_ok (lines : List Str) (data : Data)
    (h : IniParser.parse_lines lines = .ok data) :
    ∃ st, IniParser.parse_lines_from ParseState.init lines = .ok st ∧ st.data = data := by
  unfold IniParser.parse_lines at h
  cases h1 : IniParser.parse_lines_from ParseState.init lines with
  | error e => rw [h1] at h; cases h
  | ok st =>
    rw [h1] at h
    simp only [Except.ok.injEq] at h
    exact ⟨st, rfl, h⟩

/-! ## Claims -/

/-- C1: on every input text that parses, `get_value<string>(s, k)` returns
exactly the trimmed value text of the last pair line whose trimmed key is `k` and
whose governing header has trimmed name `s` (a later definition overwrites an
earlier one, and the text is returned unchanged). -/
theorem IniParser.get_value_string_last_definition {F : Type} (strtod : Str → StrtodResult F)
    (text : Str) (data : Data) (s k : Str) (pre : List Str) (raw : Str) (post : List Str)
    (hparse : IniParser.parse_file text = .ok data)
    (hsplit : getlines text = pre ++ raw :: post)
    (hdef : definesKey s k pre raw)
    (hlast : ∀ mid raw2 post2, post = mid ++ raw2 :: post2 →
      ¬ definesKey s k (pre ++ raw :: mid) raw2) :
    IniParser.get_value strtod data .string s k = .ok (pairValue (trim raw)) := by
  unfold IniParser.parse_file at hparse
  rw [hsplit] at hparse
  obtain ⟨stf, hrun, rfl⟩ := IniParser.parse_lines_ok _ _ hparse
  obtain ⟨st1, st2, h1, h2, h3⟩ := IniParser.parse_lines_from_split _ _ _ _ _ hrun
  apply IniParser.get_value_string_of_raw
  have hsnoc := IniParser.parse_lines_from_snoc _ _ _ pre raw h1 h2
  rw [IniParser.raw_preserved s k post (pre ++ [raw]) st2 stf hsnoc h3 (by
    intro mid r p2 hs
    simpa using hlast mid r p2 hs)]
  rw [IniParser.parse_line_raw st1 st2 raw s k h2]
  have hcur := IniParser.current_section_eq st1 pre h1
  obtain ⟨hp, hk, hg⟩ := hdef
  rw [hg] at hcur
  simp only [Option.getD_some] at hcur
  simp [hp, hk, hcur]

theorem IniParser.get_value_string_last_definition_witness :
    IniParser.parse_file "[S]\nk = 1\n[T]\nk = 2\n[S]\n k = a,b \nj = 3\n".toList =
        .ok [("S".toList, [("k".toList, "a,b".toList), ("j".toList, "3".toList)]),
          ("T".toList, [("k".toList, "2".toList)])] ∧
      IniParser.get_value strtod_none
        [("S".toList, [("k".toList, "a,b".toList), ("j".toList, "3".toList)]),
          ("T".toList, [("k".toList, "2".toList)])] .string "S".toList "k".toList =
        .ok "a,b".toList :=
  ⟨by decide,
    IniParser.get_value_string_last_definition strtod_none
      "[S]\nk = 1\n[T]\nk = 2\n[S]\n k = a,b \nj = 3\n".toList _ "S".toList "k".toList
      ["[S]".toList, "k = 1".toList, "[T]".toList, "k = 2".toList, "[S]".toList]
      " k = a,b ".toList ["j = 3".toList] (by decide) (by decide) (by decide) (by
        intro mid raw2 post2 h
        cases mid with
        | nil =>
          simp only [List.nil_append, List.cons.injEq] at h
          obtain ⟨h1, -⟩ := h
          subst h1
          decide
        | cons c mid2 => simp at h)⟩

/-- Appending a pair line to lines that parse and end inside a section with a
non-empty name: the result parses and holds the pair. -/
theorem IniParser.parse_lines_snoc_pair (pre : List Str) (st : ParseState) (raw : Str)
    (hpre : IniParser.parse_lines_from ParseState.init pre = .ok st)
    (hsec : st.current_section ≠ [])
    (hp : isPairLine (trim raw) = true) :
    ∃ data, IniParser.parse_lines (pre ++ [raw]) = .ok data ∧
      Data.raw data st.current_section (pairKey (trim raw)) = some (pairValue (trim raw)) := by
  have hstep : IniParser.parse_line st raw = .ok { st with
      data := Data.store st.data st.current_section (pairKey (trim raw))
        (pairValue (trim raw)) } := by
    rw [IniParser.parse_line_eq]
    simp only [isPairLine, Bool.and_eq_true, Bool.not_eq_true', decide_eq_true_eq] at hp
    obtain ⟨⟨hb, hh⟩, hm⟩ := hp
    simp [hb, hh, hm, hsec]
  refine ⟨Data.store st.data st.current_section (pairKey (trim raw)) (pairValue (trim raw)),
    ?_, ?_⟩
  · unfold IniParser.parse_lines
    rw [IniParser.parse_lines_from_snoc _ _ _ pre raw hpre hstep]
  · simp [Data.raw_store]

/-- C2: a pair line is split at its FIRST separator: after a pair line read
inside a section, `get_value<string>` of that section and of the trimmed text
before the first separator returns the trimmed text after it, later separators
included (`k = a=b` gives the value `a=b`). -/
theorem IniParser.pair_split_at_first_separator {F : Type} (strtod : Str → StrtodResult F)
    (pre : List Str) (st : ParseState) (raw : Str)
    (hpre : IniParser.parse_lines_from ParseState.init pre = .ok st)
    (hsec : st.current_section ≠ [])
    (hp : isPairLine (trim raw) = true) :
    ∃ data, IniParser.parse_lines (pre ++ [raw]) = .ok data ∧
      IniParser.get_value strtod data .string st.current_section
          (trim ((trim raw).takeWhile (fun c => c != '='))) =
        .ok (trim (((trim raw).dropWhile (fun c => c != '=')).drop 1)) := by
  obtain ⟨data, h1, h2⟩ := IniParser.parse_lines_snoc_pair pre st raw hpre hsec hp
  exact ⟨data, h1, IniParser.get_value_string_of_raw strtod data _ _ _ h2⟩

theorem IniParser.pair_split_at_first_separator_witness :
    ∃ data, IniParser.parse_lines ["[S]".toList, "k = a=b".toList] = .ok data ∧
      IniParser.get_value strtod_none data .string "S".toList "k".toList = .ok "a=b".toList :=
  IniParser.pair_split_at_first_separator strtod_none ["[S]".toList] ⟨[], "S".toList⟩
    "k = a=b".toList (by decide) (by decide) (by decide)

theorem IniParser.parse_lines_from_skipped (st : ParseState) (pre : List Str)
    (hpre : ∀ l ∈ pre, isBlankOrComment (trim l) = true) :
    IniParser.parse_lines_from st pre = .ok st := by
  induction pre with
  | nil => rfl
  | cons raw rest ih =>
    have h1 : IniParser.parse_line st raw = .ok st := by
      rw [IniParser.parse_line_eq]
      simp [hpre raw (List.mem_cons_self _ _)]
    simp only [IniParser.parse_lines_from, h1]
    exact ih (fun l hl => hpre l (List.mem_cons_of_mem _ hl))

/-- C3: when the first line that is neither blank nor a comment is a pair line,
construction fails with the pair-outside-section error, whatever follows. -/
theorem IniParser.pair_before_any_header (text : Str) (pre : List Str) (raw : Str)
    (post : List Str)
    (hsplit : getlines text = pre ++ raw :: post)
    (hpre : ∀ l ∈ pre, isBlankOrComment (trim l) = true)
    (hp : isPairLine (trim raw) = true) :
    IniParser.parse_file text =
      .error (.IniParserError "Key-value pair found outside of any section".toList) := by
  unfold IniParser.parse_file IniParser.parse_lines
  rw [hsplit, IniParser.parse_lines_from_append,
    IniParser.parse_lines_from_skipped ParseState.init pre hpre]
  have h1 : IniParser.parse_line ParseState.init raw =
      .error (.IniParserError "Key-value pair found outside of any section".toList) := by
    rw [IniParser.parse_line_eq]
    simp only [isPairLine, Bool.and_eq_true, Bool.not_eq_true', decide_eq_true_eq] at hp
    obtain ⟨⟨hb, hh⟩, hm⟩ := hp
    simp [hb, hh, hm, ParseState.init]
  simp only [IniParser.parse_lines_from, h1]

theorem IniParser.pair_before_any_header_witness :
    IniParser.parse_file "; note\n\n  k = v\n[S]\nj = w\n".toList =
      .error (.IniParserError "Key-value pair found outside of any section".toList) :=
  IniParser.pair_before_any_header "; note\n\n  k = v\n[S]\nj = w\n".toList
    ["; note".toList, []] "  k = v".toList ["[S]".toList, "j = w".toList]
    (by decide) (by decide) (by decide)

/-- C4: when the lines before it are processed without error, a line that after
trimming is non-empty, does not start with the comment marker, is not a header
and has no separator makes construction fail with a Syntax error, whether or
not a section is open at that point. -/
theorem IniParser.syntax_error_without_separator (text : Str) (pre : List Str) (raw : Str)
    (post : List Str) (st : ParseState)
    (hsplit : getlines text = pre ++ raw :: post)
    (hpre : IniParser.parse_lines_from ParseState.init pre = .ok st)
    (hb : isBlankOrComment (trim raw) = false)
    (hh : isHeader (trim raw) = false)
    (hm : '=' ∉ trim raw) :
    IniParser.parse_file text =
      .error (.IniParserError ("Syntax error: ".toList ++ trim raw)) := by
  unfold IniParser.parse_file IniParser.parse_lines
  rw [hsplit, IniParser.parse_lines_from_append, hpre]
  have h1 : IniParser.parse_line st raw =
      .error (.IniParserError ("Syntax error: ".toList ++ trim raw)) := by
    rw [IniParser.parse_line_eq]
    simp [hb, hh, hm]
  simp only [IniParser.parse_lines_from, h1]

theorem IniParser.syntax_error_without_separator_witness :
    IniParser.parse_file "[S]\nk = v\n  oops \n".toList =
        .error (.IniParserError "Syntax error: oops".toList) ∧
      IniParser.parse_file "oops\n[S]\n".toList =
        .error (.IniParserError "Syntax error: oops".toList) :=
  ⟨IniParser.syntax_error_without_separator "[S]\nk = v\n  oops \n".toList
      ["[S]".toList, "k = v".toList] "  oops ".toList []
      ⟨[("S".toList, [("k".toList, "v".toList)])], "S".toList⟩
      (by decide) (by decide) (by decide) (by decide) (by decide),
    IniParser.syntax_error_without_separator "oops\n[S]\n".toList
      [] "oops".toList ["[S]".toList] ParseState.init
      (by decide) (by decide) (by decide) (by decide) (by decide)⟩

/-- C5: for every requested type, `get_value(s, k)` fails with
"Section not found: " and `s` when the document has no section `s`, and with
"Key not found: " and `k` when section `s` exists without key `k`, whatever raw
values are stored. -/
theorem IniParser.get_value_missing {F : Type} (strtod : Str → StrtodResult F)
    (data : Data) (T : Ty) (s k : Str) :
    (StrMap.find data s = none →
      IniParser.get_value strtod data T s k =
        .error (.IniParserError ("Section not found: ".toList ++ s))) ∧
    (∀ keys, StrMap.find data s = some keys → StrMap.find keys k = none →
      IniParser.get_value strtod data T s k =
        .error (.IniParserError ("Key not found: ".toList ++ k))) := by
  constructor
  · intro h
    simp [IniParser.get_value, h]
  · intro keys h1 h2
    simp [IniParser.get_value, h1, h2]

theorem IniParser.get_value_missing_witness :
    IniParser.get_value strtod_none [("Section1".toList, [("var1".toList, "x".toList)])]
        .int "NoSuchSection".toList "var1".toList =
        .error (.IniParserError "Section not found: NoSuchSection".toList) ∧
      IniParser.get_value strtod_none [("Section1".toList, [("var1".toList, "x".toList)])]
        .double "Section1".toList "missing".toList =
        .error (.IniParserError "Key not found: missing".toList) :=
  ⟨(IniParser.get_value_missing strtod_none _ .int "NoSuchSection".toList "var1".toList).1
      (by decide),
    (IniParser.get_value_missing strtod_none [("Section1".toList, [("var1".toList, "x".toList)])]
      .double "Section1".toList "missing".toList).2 [("var1".toList, "x".toList)]
      (by decide) (by decide)⟩

/-! ### Facts about `trim` and `stoi` -/

theorem trim_cons_blank (c : Char) (s : Str) (hc : c ∈ " \t".toList) :
    trim (c :: s) = trim s := by
  unfold trim
  simp only [find_first_not_of, find_last_not_of, hc, if_true]
  cases h1 : find_first_not_of s " \t".toList with
  | none => simp
  | some i =>
    cases h2 : find_last_not_of s " \t".toList with
    | none => simp
    | some e =>
      simp only [Option.map_some', substr, List.drop_succ_cons]
      congr 1
      omega

theorem find_last_not_of_getLast (s : Str) (chars : Str) (b : Char)
    (hlast : s.getLast? = some b) (hb : b ∉ chars) :
    find_last_not_of s chars = some (s.length - 1) := by
  induction s with
  | nil => simp at hlast
  | cons c cs ih =>
    cases cs with
    | nil =>
      simp only [List.getLast?_singleton, Option.some.injEq] at hlast
      subst hlast
      simp [find_last_not_of, hb]
    | cons c2 t =>
      rw [List.getLast?_cons_cons] at hlast
      rw [find_last_not_of, ih hlast]
      simp

/-- A string whose first and last characters are neither a space nor a tab is
left unchanged by `trim`. -/
theorem trim_eq_self (s : Str) (a b : Char) (hfirst : s.head? = some a)
    (ha : a ∉ " \t".toList) (hlast : s.getLast? = some b) (hb : b ∉ " \t".toList) :
    trim s = s := by
  cases s with
  | nil => simp at hfirst
  | cons c cs =>
    simp only [List.head?_cons, Option.some.injEq] at hfirst
    subst hfirst
    unfold trim
    rw [find_last_not_of_getLast _ _ b hlast hb]
    simp only [find_first_not_of, ha, if_false]
    simp [substr]

theorem isdigit_not_isspace (c : Char) (h : isdigit c = true) : isspace c = false := by
  by_contra hs
  simp only [Bool.not_eq_false, isspace, Bool.or_eq_true, decide_eq_true_eq] at hs
  rcases hs with ((((hs | hs) | hs) | hs) | hs) | hs <;> subst hs <;> revert h <;> decide

theorem isdigit_not_blank (c : Char) (h : isdigit c = true) : c ∉ " \t".toList := by
  intro hc
  simp only [String.toList, List.mem_cons, List.mem_singleton] at hc
  rcases hc with hc | hc | hc
  · subst hc; revert h; decide
  · subst hc; revert h; decide
  · simp at hc

theorem takeWhile_isdigit_append (digits rest : Str)
    (hdig : ∀ d ∈ digits, isdigit d = true)
    (hrest : ∀ c, rest.head? = some c → isdigit c = false) :
    (digits ++ rest).takeWhile isdigit = digits := by
  induction digits with
  | nil =>
    cases rest with
    | nil => rfl
    | cons c cs => simp [List.takeWhile, hrest c rfl]
  | cons d ds ih =>
    have h1 := ih (fun x hx => hdig x (List.mem_cons_of_mem _ hx))
    simp [List.takeWhile_cons, hdig d (List.mem_cons_self _ _), h1]

/-- What `stoi` does on an optional sign, a non-empty run of digits and a rest
that does not start with a digit. -/
theorem stoi_sign_digits (sign digits rest : Str)
    (hsign : sign = [] ∨ sign = ['-'] ∨ sign = ['+'])
    (hne : digits ≠ [])
    (hdig : ∀ d ∈ digits, isdigit d = true)
    (hrest : ∀ c, rest.head? = some c → isdigit c = false) :
    stoi (sign ++ digits ++ rest) =
      if literalValue sign digits < INT_MIN ∨ INT_MAX < literalValue sign digits then
        .error .out_of_range
      else .ok (literalValue sign digits, sign.length + digits.length) := by
  obtain ⟨d, ds, rfl⟩ := List.exists_cons_of_ne_nil hne
  have hd := hdig d (List.mem_cons_self _ _)
  have hds := isdigit_not_isspace d hd
  have hdm : d ≠ '-' := by rintro rfl; revert hd; decide
  have hdp : d ≠ '+' := by rintro rfl; revert hd; decide
  have htw := takeWhile_isdigit_append (d :: ds) rest hdig hrest
  rcases hsign with rfl | rfl | rfl
  · simp only [List.nil_append, List.cons_append] at htw ⊢
    have h1 : (d :: (ds ++ rest)).dropWhile isspace = d :: (ds ++ rest) := by
      simp [List.dropWhile_cons, hds]
    unfold stoi
    simp only [h1]
    simp [hdm, hdp, htw, literalValue]
  · simp only [List.cons_append, List.nil_append] at htw ⊢
    have h1 : ('-' :: d :: (ds ++ rest)).dropWhile isspace = '-' :: d :: (ds ++ rest) := by
      simp [List.dropWhile_cons, isspace]
    unfold stoi
    simp only [h1]
    simp [htw, literalValue]
  · simp only [List.cons_append, List.nil_append] at htw ⊢
    have h1 : ('+' :: d :: (ds ++ rest)).dropWhile isspace = '+' :: d :: (ds ++ rest) := by
      simp [List.dropWhile_cons, isspace]
    unfold stoi
    simp only [h1]
    simp [htw, literalValue]

theorem decimalValue_snoc (digits : Str) (d : Char) :
    decimalValue (digits ++ [d]) = 10 * decimalValue digits + digitVal d := by
  simp [decimalValue, List.foldl_append]

theorem digitChar_spec : ∀ d, d < 10 →
    isdigit (Nat.digitChar d) = true ∧ digitVal (Nat.digitChar d) = d := by
  decide

theorem toDigitsCore_spec (fuel : Nat) : ∀ (n : Nat) (ds : Str), n < fuel →
    ∃ digits, Nat.toDigitsCore 10 fuel n ds = digits ++ ds ∧ digits ≠ [] ∧
      (∀ c ∈ digits, isdigit c = true) ∧ decimalValue digits = n := by
  induction fuel with
  | zero => intro n ds h; omega
  | succ f ih =>
    intro n ds hn
    obtain ⟨hd1, hd2⟩ := digitChar_spec (n % 10) (Nat.mod_lt _ (by norm_num))
    simp only [Nat.toDigitsCore]
    by_cases h0 : n / 10 = 0
    · refine ⟨[Nat.digitChar (n % 10)], by simp [h0], by simp, by simpa using hd1, ?_⟩
      simp only [decimalValue, List.foldl_cons, List.foldl_nil, hd2]
      omega
    · obtain ⟨digits, he, hne, hdig, hval⟩ :=
        ih (n / 10) (Nat.digitChar (n % 10) :: ds) (by omega)
      refine ⟨digits ++ [Nat.digitChar (n % 10)], by simp [h0, he], by simp, ?_, ?_⟩
      · intro c hc
        rcases List.mem_append.1 hc with hc | hc
        · exact hdig c hc
        · simp only [List.mem_singleton] at hc
          rw [hc]
          exact hd1
      · rw [decimalValue_snoc, hval, hd2]
        omega

theorem toDigits_spec (n : Nat) :
    Nat.toDigits 10 n ≠ [] ∧ (∀ c ∈ Nat.toDigits 10 n, isdigit c = true) ∧
      decimalValue (Nat.toDigits 10 n) = n := by
  obtain ⟨digits, he, hne, hdig, hval⟩ := toDigitsCore_spec (n + 1) n [] (by omega)
  simp only [List.append_nil] at he
  unfold Nat.toDigits
  rw [he]
  exact ⟨hne, hdig, hval⟩

/-- The decimal rendering of an integer is an optional minus sign followed by
digits that denote it. -/
theorem decimalRendering_spec (n : Int) :
    ∃ sign digits, decimalRendering n = sign ++ digits ∧ (sign = [] ∨ sign = ['-']) ∧
      digits ≠ [] ∧ (∀ c ∈ digits, isdigit c = true) ∧ literalValue sign digits = n := by
  cases n with
  | ofNat m =>
    obtain ⟨h1, h2, h3⟩ := toDigits_spec m
    refine ⟨[], Nat.toDigits 10 m, rfl, Or.inl rfl, h1, h2, ?_⟩
    simp [literalValue, h3]
  | negSucc m =>
    obtain ⟨h1, h2, h3⟩ := toDigits_spec (m + 1)
    refine ⟨['-'], Nat.toDigits 10 (m + 1), rfl, Or.inr rfl, h1, h2, ?_⟩
    simp only [literalValue, if_true, h3]
    rfl

theorem IniParser.get_value_of_raw {F : Type} (strtod : Str → StrtodResult F)
    (data : Data) (T : Ty) (s k v : Str) (h : Data.raw data s k = some v) :
    IniParser.get_value strtod data T s k = IniParser.convert_value strtod T v := by
  unfold Data.raw at h
  unfold IniParser.get_value
  cases hs : StrMap.find data s with
  | none => simp [hs] at h
  | some keys =>
    have hk : StrMap.find keys k = some v := by simpa [hs] using h
    simp [hk]

/-- C6 (evaluation at failing inputs): for the raw values `abc` and the empty
string `get_value<int>` ends with `std::invalid_argument`, and for
`99999999999` with `std::out_of_range`; none of them is the parser's
"Invalid integer format: " error. -/
theorem IniParser.get_value_int_unparsed_escapes :
    IniParser.parse_file "[S]\na = abc\nb =\nc = 99999999999\n".toList =
        .ok [("S".toList, [("a".toList, "abc".toList), ("b".toList, []),
          ("c".toList, "99999999999".toList)])] ∧
      IniParser.get_value strtod_none
          [("S".toList, [("a".toList, "abc".toList), ("b".toList, []),
            ("c".toList, "99999999999".toList)])] .int "S".toList "a".toList =
        .error .invalid_argument ∧
      IniParser.get_value strtod_none
          [("S".toList, [("a".toList, "abc".toList), ("b".toList, []),
            ("c".toList, "99999999999".toList)])] .int "S".toList "b".toList =
        .error .invalid_argument ∧
      IniParser.get_value strtod_none
          [("S".toList, [("a".toList, "abc".toList), ("b".toList, []),
            ("c".toList, "99999999999".toList)])] .int "S".toList "c".toList =
        .error .out_of_range := by
  refine ⟨by decide, by decide, by decide, by decide⟩

/-- C7: a raw value made of an in-range decimal integer (optional sign, digits)
followed by at least one more character, the first of which is not a digit,
makes `get_value<int>` fail with "Invalid integer format: " and the raw value. -/
theorem IniParser.get_value_int_trailing_text {F : Type} (strtod : Str → StrtodResult F)
    (data : Data) (s k sign digits : Str) (c : Char) (rest : Str)
    (hsign : sign = [] ∨ sign = ['-'] ∨ sign = ['+'])
    (hne : digits ≠ [])
    (hdig : ∀ d ∈ digits, isdigit d = true)
    (hlo : INT_MIN ≤ literalValue sign digits)
    (hhi : literalValue sign digits ≤ INT_MAX)
    (hc : isdigit c = false)
    (hraw : Data.raw data s k = some (sign ++ digits ++ c :: rest)) :
    IniParser.get_value strtod data .int s k =
      .error (.IniParserError
        ("Invalid integer format: ".toList ++ (sign ++ digits ++ c :: rest))) := by
  rw [IniParser.get_value_of_raw strtod data .int s k _ hraw]
  unfold IniParser.convert_value
  have hst := stoi_sign_digits sign digits (c :: rest) hsign hne hdig (by
    intro x hx
    simp only [List.head?_cons, Option.some.injEq] at hx
    rw [← hx]
    exact hc)
  have hr : ¬ (literalValue sign digits < INT_MIN ∨ INT_MAX < literalValue sign digits) := by
    omega
  rw [if_neg hr] at hst
  simp only [hst]
  have hlen : sign.length + digits.length ≠ (sign ++ digits ++ c :: rest).length := by
    simp only [List.length_append, List.length_cons]
    omega
  simp only [hlen, ne_eq, not_false_eq_true, if_true]

theorem IniParser.get_value_int_trailing_text_witness :
    IniParser.get_value strtod_none [("S".toList, [("k".toList, "12a".toList)])]
        .int "S".toList "k".toList =
      .error (.IniParserError "Invalid integer format: 12a".toList) :=
  IniParser.get_value_int_trailing_text strtod_none
    [("S".toList, [("k".toList, "12a".toList)])] "S".toList "k".toList [] "12".toList 'a' []
    (by decide) (by decide) (by decide) (by decide) (by decide) (by decide) (by decide)

theorem pairLineK_facts (v : Str) (a b : Char) (hfirst : v.head? = some a)
    (ha : a ∉ " \t".toList) (hlast : v.getLast? = some b) (hb : b ∉ " \t".toList) :
    isPairLine (trim (pairLineK v)) = true ∧ pairKey (trim (pairLineK v)) = "k".toList ∧
      pairValue (trim (pairLineK v)) = v := by
  have hv : v ≠ [] := by
    intro h
    simp [h] at hfirst
  have hshape : pairLineK v = 'k' :: ' ' :: '=' :: ' ' :: v := rfl
  have hlast4 : ('k' :: ' ' :: '=' :: ' ' :: v).getLast? = some b := by
    obtain ⟨c, cs, rfl⟩ := List.exists_cons_of_ne_nil hv
    simpa [List.getLast?_cons_cons] using hlast
  have hline : trim ('k' :: ' ' :: '=' :: ' ' :: v) = 'k' :: ' ' :: '=' :: ' ' :: v :=
    trim_eq_self ('k' :: ' ' :: '=' :: ' ' :: v) 'k' b rfl (by decide) hlast4 hb
  rw [hshape, hline]
  refine ⟨by simp [isPairLine, isBlankOrComment, isHeader], ?_, ?_⟩
  · have : pairKey ('k' :: ' ' :: '=' :: ' ' :: v) = trim ['k', ' '] := by
      simp [pairKey, List.takeWhile]
    rw [this]
    decide
  · have : pairValue ('k' :: ' ' :: '=' :: ' ' :: v) = trim (' ' :: v) := by
      simp [pairValue, List.dropWhile]
    rw [this, trim_cons_blank _ _ (by decide), trim_eq_self v a b hfirst ha hlast hb]

/-- C8: for every integer `n` of the 32-bit signed range, the pair line
`k = <decimal rendering of n>` read inside a section makes `get_value<int>` of
that section and of key `k` succeed with `n`. -/
theorem IniParser.get_value_int_of_rendering {F : Type} (strtod : Str → StrtodResult F)
    (pre : List Str) (st : ParseState) (n : Int)
    (hpre : IniParser.parse_lines_from ParseState.init pre = .ok st)
    (hsec : st.current_section ≠ [])
    (hlo : INT_MIN ≤ n) (hhi : n ≤ INT_MAX) :
    ∃ data, IniParser.parse_lines (pre ++ [pairLineK (decimalRendering n)]) = .ok data ∧
      IniParser.get_value strtod data .int st.current_section "k".toList = .ok n := by
  obtain ⟨sign, digits, hrep, hsign, hne, hdig, hval⟩ := decimalRendering_spec n
  have hlastmem := List.getLast_mem hne
  have hlast : (decimalRendering n).getLast? = some (digits.getLast hne) := by
    rw [hrep, List.getLast?_append_of_ne_nil _ hne, List.getLast?_eq_getLast _ hne]
  obtain ⟨a, hfirst, ha⟩ : ∃ a, (decimalRendering n).head? = some a ∧ a ∉ " \t".toList := by
    rw [hrep]
    rcases hsign with rfl | rfl
    · obtain ⟨d, ds, rfl⟩ := List.exists_cons_of_ne_nil hne
      exact ⟨d, rfl, isdigit_not_blank d (hdig d (List.mem_cons_self _ _))⟩
    · exact ⟨'-', rfl, by decide⟩
  obtain ⟨hp, hkey, hvalue⟩ := pairLineK_facts (decimalRendering n) a (digits.getLast hne)
    hfirst ha hlast (isdigit_not_blank _ (hdig _ hlastmem))
  obtain ⟨data, h1, h2⟩ := IniParser.parse_lines_snoc_pair pre st _ hpre hsec hp
  rw [hkey, hvalue] at h2
  refine ⟨data, h1, ?_⟩
  rw [IniParser.get_value_of_raw strtod data .int _ _ _ h2]
  unfold IniParser.convert_value
  have hst := stoi_sign_digits sign digits [] (by tauto) hne hdig (by simp)
  rw [hval, if_neg (by omega), List.append_nil, ← hrep] at hst
  simp only [hst]
  have hlen : sign.length + digits.length = (decimalRendering n).length := by
    rw [hrep, List.length_append]
  simp [hlen]

theorem IniParser.get_value_int_of_rendering_witness :
    pairLineK (decimalRendering (-42)) = "k = -42".toList ∧
      ∃ data, IniParser.parse_lines
          (["[Section1]".toList] ++ [pairLineK (decimalRendering (-42))]) = .ok data ∧
        IniParser.get_value strtod_none data .int "Section1".toList "k".toList = .ok (-42) :=
  ⟨by decide,
    IniParser.get_value_int_of_rendering strtod_none ["[Section1]".toList]
      ⟨[], "Section1".toList⟩ (-42) (by decide) (by decide) (by decide) (by decide)⟩

/-! ### Facts about `replace`, `stod` and `strtod` -/

theorem replace_comma_idem (v : Str) :
    replace (replace v ',' '.') ',' '.' = replace v ',' '.' := by
  unfold replace
  rw [List.map_map]
  apply List.map_congr_left
  intro c _
  by_cases h : c = ','
  · simp [h]
  · simp [h]

theorem replace_length (v : Str) (a b : Char) : (replace v a b).length = v.length := by
  simp [replace]

/-- The `double` branch of `convert_value`, with the length of the normalized
text written as the length of the raw value. -/
theorem IniParser.convert_value_double_eq {F : Type} (strtod : Str → StrtodResult F)
    (v : Str) :
    IniParser.convert_value strtod .double v =
      match stod strtod (replace v ',' '.') with
      | .error e => .error e
      | .ok (result, processed) =>
        if processed ≠ v.length then
          .error (.IniParserError ("Invalid double format: ".toList ++ v))
        else .ok result := by
  simp only [IniParser.convert_value, replace_length]

/-- C9: querying a raw value `v` as floating point and querying the text got
from `v` by replacing every comma with a period have the same outcome: both
succeed with the same number, or both fail; `strtod` is any fixed function. -/
theorem IniParser.get_value_double_comma_as_period {F : Type} (strtod : Str → StrtodResult F)
    (data1 data2 : Data) (s k v : Str)
    (h1 : Data.raw data1 s k = some v)
    (h2 : Data.raw data2 s k = some (replace v ',' '.')) :
    (∃ x, IniParser.get_value strtod data1 .double s k = .ok x ∧
        IniParser.get_value strtod data2 .double s k = .ok x) ∨
      ((∃ e, IniParser.get_value strtod data1 .double s k = .error e) ∧
        (∃ e, IniParser.get_value strtod data2 .double s k = .error e)) := by
  rw [IniParser.get_value_of_raw strtod data1 .double s k _ h1,
    IniParser.get_value_of_raw strtod data2 .double s k _ h2,
    IniParser.convert_value_double_eq, IniParser.convert_value_double_eq,
    replace_comma_idem, replace_length]
  cases hs : stod strtod (replace v ',' '.') with
  | error e => exact Or.inr ⟨⟨e, rfl⟩, ⟨e, rfl⟩⟩
  | ok r =>
    obtain ⟨result, processed⟩ := r
    by_cases hp : processed = v.length
    · exact Or.inl ⟨result, by simp [hp], by simp [hp]⟩
    · exact Or.inr
        ⟨⟨.IniParserError ("Invalid double format: ".toList ++ v), by simp [hp]⟩,
          ⟨.IniParserError ("Invalid double format: ".toList ++ replace v ',' '.'),
            by simp [hp]⟩⟩

theorem IniParser.get_value_double_comma_as_period_witness :
    (∃ x, IniParser.get_value (strtod_c exactModel)
          [("S".toList, [("k".toList, "3,14".toList)])] .double "S".toList "k".toList = .ok x ∧
        IniParser.get_value (strtod_c exactModel)
          [("S".toList, [("k".toList, "3.14".toList)])] .double "S".toList "k".toList = .ok x) ∨
      ((∃ e, IniParser.get_value (strtod_c exactModel)
          [("S".toList, [("k".toList, "3,14".toList)])] .double "S".toList "k".toList =
            .error e) ∧
        (∃ e, IniParser.get_value (strtod_c exactModel)
          [("S".toList, [("k".toList, "3.14".toList)])] .double "S".toList "k".toList =
            .error e)) :=
  IniParser.get_value_double_comma_as_period (strtod_c exactModel)
    [("S".toList, [("k".toList, "3,14".toList)])] [("S".toList, [("k".toList, "3.14".toList)])]
    "S".toList "k".toList "3,14".toList (by decide) (by decide)

theorem dropWhile_isdigit_append (digits rest : Str)
    (hdig : ∀ d ∈ digits, isdigit d = true)
    (hrest : ∀ c, rest.head? = some c → isdigit c = false) :
    (digits ++ rest).dropWhile isdigit = rest := by
  induction digits with
  | nil =>
    cases rest with
    | nil => rfl
    | cons c cs => simp [List.dropWhile_cons, hrest c rfl]
  | cons d ds ih =>
    have h1 := ih (fun x hx => hdig x (List.mem_cons_of_mem _ hx))
    simp [List.dropWhile_cons, hdig d (List.mem_cons_self _ _), h1]

theorem isdigit_iff (c : Char) : isdigit c = true ↔ 48 ≤ c.toNat ∧ c.toNat ≤ 57 := by
  simp [isdigit]

theorem tolower_digit (c : Char) (h : isdigit c = true) : tolower c = c := by
  rw [isdigit_iff] at h
  unfold tolower
  have h2 : ¬ (65 ≤ c.toNat) := by omega
  simp [h2]

theorem tolower_digit_ne (c m : Char) (h : isdigit c = true) (hm : isdigit m = false) :
    tolower c ≠ m := by
  rw [tolower_digit c h]
  rintro rfl
  rw [h] at hm
  cases hm

theorem scanHex_eq_none (s : Str)
    (h : ∀ x, (s.drop 1).head? = some x → tolower x ≠ 'x') : scanHex s = none := by
  unfold scanHex
  split
  · rename_i x r
    simp [h x (by simp)]
  · rfl

theorem replace_digits (digits : Str) (hdig : ∀ d ∈ digits, isdigit d = true) :
    replace digits ',' '.' = digits := by
  unfold replace
  conv_rhs => rw [← List.map_id digits]
  apply List.map_congr_left
  intro c hc
  have : c ≠ ',' := by
    rintro rfl
    exact absurd (hdig _ hc) (by decide)
  simp [this]

/-- What `strtod` reads from digits, a period, digits and a second period: it
stops before the second period. -/
theorem strtod_c_two_periods {F : Type} (M : FloatModel F) (d1 d2 rest : Str)
    (h1 : d1 ≠ []) (hd1 : ∀ d ∈ d1, isdigit d = true) (hd2 : ∀ d ∈ d2, isdigit d = true) :
    (strtod_c M (d1 ++ '.' :: (d2 ++ '.' :: rest))).consumed = d1.length + 1 + d2.length ∧
      (strtod_c M (d1 ++ '.' :: (d2 ++ '.' :: rest))).erange =
        rangeError M (pointValue d1 d2) := by
  have hper : ∀ (t : Str) (c : Char), ('.' :: t).head? = some c → isdigit c = false := by
    intro t c hc
    simp only [List.head?_cons, Option.some.injEq] at hc
    rw [← hc]
    decide
  have htw1 := takeWhile_isdigit_append d1 ('.' :: (d2 ++ '.' :: rest)) hd1 (hper _)
  have hdw1 := dropWhile_isdigit_append d1 ('.' :: (d2 ++ '.' :: rest)) hd1 (hper _)
  have htw2 := takeWhile_isdigit_append d2 ('.' :: rest) hd2 (hper _)
  have hdrop : (d1 ++ '.' :: (d2 ++ '.' :: rest)).drop (d1.length + 1 + d2.length) =
      '.' :: rest := by
    have : d1 ++ '.' :: (d2 ++ '.' :: rest) = (d1 ++ '.' :: d2) ++ '.' :: rest := by simp
    rw [this]
    exact List.drop_left' (by simp; omega)
  have hmant : scanMantissa isdigit (d1 ++ '.' :: (d2 ++ '.' :: rest)) =
      some (d1, d2, d1.length + 1 + d2.length) := by
    unfold scanMantissa
    simp only [htw1, hdw1, htw2]
    simp [h1]
  have hexp : scanExponent 'e' ('.' :: rest) = (0, 0) := by
    have : tolower '.' ≠ 'e' := by decide
    simp [scanExponent, this]
  have hdec : scanDecimal (d1 ++ '.' :: (d2 ++ '.' :: rest)) =
      some (.finite (pointValue d1 d2), d1.length + 1 + d2.length) := by
    unfold scanDecimal
    simp only [hmant, hdrop, hexp, pointValue, Nat.add_zero]
  obtain ⟨c, cs, rfl⟩ := List.exists_cons_of_ne_nil h1
  have hc := hd1 c (List.mem_cons_self _ _)
  have hhex : scanHex (c :: cs ++ '.' :: (d2 ++ '.' :: rest)) = none := by
    apply scanHex_eq_none
    intro x hx
    cases cs with
    | nil =>
      simp only [List.cons_append, List.nil_append, List.drop_succ_cons, List.drop_zero,
        List.head?_cons, Option.some.injEq] at hx
      rw [← hx]
      decide
    | cons c2 t =>
      simp only [List.cons_append, List.drop_succ_cons, List.drop_zero, List.head?_cons,
        Option.some.injEq] at hx
      rw [← hx]
      exact tolower_digit_ne c2 'x'
        (hd1 c2 (List.mem_cons_of_mem _ (List.mem_cons_self _ _))) (by decide)
  have hlit : scanLiteral (c :: cs ++ '.' :: (d2 ++ '.' :: rest)) =
      some (.finite (pointValue (c :: cs) d2), (c :: cs).length + 1 + d2.length) := by
    unfold scanLiteral
    rw [hhex, hdec]
  have hsp : (c :: cs ++ '.' :: (d2 ++ '.' :: rest)).dropWhile isspace =
      c :: cs ++ '.' :: (d2 ++ '.' :: rest) := by
    simp [List.dropWhile_cons, isdigit_not_isspace c hc]
  have hcm : c ≠ '-' := by rintro rfl; revert hc; decide
  have hcp : c ≠ '+' := by rintro rfl; revert hc; decide
  have hs2 : (if ((c :: cs ++ '.' :: (d2 ++ '.' :: rest)).head? == some '-' ||
      (c :: cs ++ '.' :: (d2 ++ '.' :: rest)).head? == some '+') = true
      then (c :: cs ++ '.' :: (d2 ++ '.' :: rest)).tail
      else c :: cs ++ '.' :: (d2 ++ '.' :: rest)) = c :: cs ++ '.' :: (d2 ++ '.' :: rest) := by
    simp [hcm, hcp]
  unfold strtod_c
  simp only [hsp, hs2, hlit]
  simp

theorem replace_separator (c : Char) (hc : c = ',' ∨ c = '.') :
    (if c = ',' then '.' else c) = '.' := by
  rcases hc with rfl | rfl <;> decide

/-- Outcome of the conversion to `double` on digits, a separator, digits, a
separator and digits, where each separator is a comma or a period. -/
theorem IniParser.convert_value_double_two_separators {F : Type} (M : FloatModel F)
    (d1 d2 d3 : Str) (s1 s2 : Char)
    (h1 : d1 ≠ []) (hd1 : ∀ d ∈ d1, isdigit d = true) (hd2 : ∀ d ∈ d2, isdigit d = true)
    (hd3 : ∀ d ∈ d3, isdigit d = true)
    (hs1 : s1 = ',' ∨ s1 = '.') (hs2 : s2 = ',' ∨ s2 = '.') :
    IniParser.convert_value (strtod_c M) .double (d1 ++ s1 :: (d2 ++ s2 :: d3)) =
      if rangeError M (pointValue d1 d2) = true then .error .out_of_range
      else .error (.IniParserError
        ("Invalid double format: ".toList ++ (d1 ++ s1 :: (d2 ++ s2 :: d3)))) := by
  have hnorm : replace (d1 ++ s1 :: (d2 ++ s2 :: d3)) ',' '.' =
      d1 ++ '.' :: (d2 ++ '.' :: d3) := by
    have e1 := replace_digits d1 hd1
    have e2 := replace_digits d2 hd2
    have e3 := replace_digits d3 hd3
    unfold replace at e1 e2 e3 ⊢
    simp only [List.map_append, List.map_cons, e1, e2, e3, replace_separator s1 hs1,
      replace_separator s2 hs2]
  obtain ⟨hcons, herange⟩ := strtod_c_two_periods M d1 d2 d3 h1 hd1 hd2
  rw [IniParser.convert_value_double_eq, hnorm]
  unfold stod
  simp only [hcons, herange]
  have hne : d1.length + 1 + d2.length ≠ 0 := by omega
  have hlen : d1.length + 1 + d2.length ≠ (d1 ++ s1 :: (d2 ++ s2 :: d3)).length := by
    simp only [List.length_append, List.length_cons]
    omega
  by_cases hr : rangeError M (pointValue d1 d2) = true
  · simp [hr, hne]
  · simp only [hne, hr, hlen, if_false, ne_eq, not_false_eq_true, if_true,
      Bool.false_eq_true]

/-- When the leading `digits.digits` causes no range error in `strtod`, a raw
value of the form digits, separator, digits, separator, digits makes
`get_value<double>` fail with "Invalid double format: " and the ORIGINAL raw
value. -/
theorem IniParser.get_value_double_two_separators {F : Type} (M : FloatModel F)
    (data : Data) (s k d1 d2 d3 : Str) (s1 s2 : Char)
    (h1 : d1 ≠ []) (hd1 : ∀ d ∈ d1, isdigit d = true) (hd2 : ∀ d ∈ d2, isdigit d = true)
    (hd3 : ∀ d ∈ d3, isdigit d = true)
    (hs1 : s1 = ',' ∨ s1 = '.') (hs2 : s2 = ',' ∨ s2 = '.')
    (hrange : rangeError M (pointValue d1 d2) = false)
    (hraw : Data.raw data s k = some (d1 ++ s1 :: (d2 ++ s2 :: d3))) :
    IniParser.get_value (strtod_c M) data .double s k =
      .error (.IniParserError
        ("Invalid double format: ".toList ++ (d1 ++ s1 :: (d2 ++ s2 :: d3)))) := by
  rw [IniParser.get_value_of_raw (strtod_c M) data .double s k _ hraw,
    IniParser.convert_value_double_two_separators M d1 d2 d3 s1 s2 h1 hd1 hd2 hd3 hs1 hs2]
  simp [hrange]

theorem pointValue_3_14 : pointValue "3".toList "14".toList = 314 / 100 := by
  have h : decimalValue ("3".toList ++ "14".toList) = 314 := by decide
  unfold pointValue
  rw [h]
  norm_num

theorem IniParser.get_value_double_two_separators_witness :
    IniParser.get_value (strtod_c exactModel) [("S".toList, [("k".toList, "3,14,15".toList)])]
        .double "S".toList "k".toList =
      .error (.IniParserError "Invalid double format: 3,14,15".toList) :=
  IniParser.get_value_double_two_separators exactModel
    [("S".toList, [("k".toList, "3,14,15".toList)])] "S".toList "k".toList
    "3".toList "14".toList "15".toList ',' ','
    (by decide) (by decide) (by decide) (by decide) (by decide) (by decide)
    (by
      rw [rangeError, pointValue_3_14]
      norm_num [DBL_OVERFLOW, DBL_MIN, exactModel])
    (by decide)

theorem decimalValue_nines (n : Nat) :
    (decimalValue (List.replicate n '9') : ℚ) = 10 ^ n - 1 := by
  induction n with
  | zero => simp [decimalValue]
  | succ m ih =>
    have hv : digitVal '9' = 9 := by decide
    rw [List.replicate_succ', decimalValue_snoc, hv]
    push_cast
    rw [ih]
    ring

/-- The literal of at least 310 nines, a period and `14` is beyond the binary64
range. -/
theorem pointValue_nines_overflow (n : Nat) (hn : 310 ≤ n) :
    DBL_OVERFLOW ≤ pointValue (List.replicate n '9') "14".toList := by
  have h1 : digitVal '1' = 1 := by decide
  have h4 : digitVal '4' = 4 := by decide
  have hval : (decimalValue (List.replicate n '9' ++ "14".toList) : ℚ) =
      100 * (10 ^ n - 1) + 14 := by
    have : List.replicate n '9' ++ "14".toList = (List.replicate n '9' ++ ['1']) ++ ['4'] := by
      simp
    rw [this, decimalValue_snoc, decimalValue_snoc, h1, h4]
    push_cast
    rw [decimalValue_nines]
    ring
  have hlen : ("14".toList.length : Int) = 2 := by decide
  have hpow : (10 : ℚ) ^ 310 ≤ 10 ^ n := pow_le_pow_right₀ (by norm_num) hn
  have hbig : (2 : ℚ) ^ 1024 - 2 ^ 970 ≤ 10 ^ 310 - 1 := by norm_num
  unfold pointValue DBL_OVERFLOW
  rw [hval, hlen]
  have h2 : (10 : ℚ) ^ ((0 : Int) - 2) = 1 / 100 := by norm_num
  rw [h2]
  linarith

theorem Data.raw_singleton (s k v : Str) : Data.raw [(s, [(k, v)])] s k = some v := by
  simp [Data.raw, StrMap.find]

/-- Outcome of `get_value<double>` on at least 310 nines followed by `,14,15`. -/
theorem IniParser.get_value_double_nines {F : Type} (M : FloatModel F) (n : Nat)
    (hn : 310 ≤ n) :
    IniParser.get_value (strtod_c M)
        [("S".toList, [("k".toList, List.replicate n '9' ++ ",14,15".toList)])]
        .double "S".toList "k".toList =
      .error .out_of_range := by
  have hshape : ",14,15".toList = ',' :: ("14".toList ++ ',' :: "15".toList) := by decide
  rw [IniParser.get_value_of_raw (strtod_c M) _ .double _ _ _ (Data.raw_singleton _ _ _),
    hshape,
    IniParser.convert_value_double_two_separators M (List.replicate n '9') "14".toList
      "15".toList ',' ',' (by
        intro h
        have := congrArg List.length h
        simp at this
        omega) (by
        intro d hd
        rw [List.eq_of_mem_replicate hd]
        decide) (by decide) (by decide) (Or.inl rfl) (Or.inl rfl)]
  have hr : rangeError M (pointValue (List.replicate n '9') "14".toList) = true := by
    unfold rangeError
    rw [decide_eq_true (pointValue_nines_overflow n hn), Bool.true_or]
  rw [if_pos hr]

/-- C10 (evaluation at a failing input): for the raw value made of 310 nines
followed by `,14,15`, `get_value<double>` ends with `std::out_of_range` thrown
by `std::stod`, not with the parser's "Invalid double format: " error. -/
theorem IniParser.get_value_double_overflow_escapes {F : Type} (M : FloatModel F) :
    IniParser.get_value (strtod_c M)
        [("S".toList, [("k".toList, List.replicate 310 '9' ++ ",14,15".toList)])]
        .double "S".toList "k".toList =
      .error .out_of_range :=
  IniParser.get_value_double_nines M 310 (le_refl _)

/-! ### Skipped lines, headers and the two construction errors -/

theorem IniParser.parse_line_skipped (st : ParseState) (raw : Str)
    (h : isBlankOrComment (trim raw) = true) : IniParser.parse_line st raw = .ok st := by
  rw [IniParser.parse_line_eq]
  simp [h]

/-- C11: a line that after trimming is empty or starts with the comment marker
can be inserted or removed at any position without changing the result of
construction, be it the Document or the error. -/
theorem IniParser.blank_and_comment_lines_ignored (text1 text2 : Str) (pre : List Str)
    (raw : Str) (post : List Str)
    (h1 : getlines text1 = pre ++ raw :: post)
    (h2 : getlines text2 = pre ++ post)
    (hskip : isBlankOrComment (trim raw) = true) :
    IniParser.parse_file text1 = IniParser.parse_file text2 := by
  unfold IniParser.parse_file IniParser.parse_lines
  rw [h1, h2, IniParser.parse_lines_from_append, IniParser.parse_lines_from_append]
  cases IniParser.parse_lines_from ParseState.init pre with
  | error e => rfl
  | ok st =>
    simp only [IniParser.parse_lines_from, IniParser.parse_line_skipped st raw hskip]

theorem IniParser.blank_and_comment_lines_ignored_witness :
    IniParser.parse_file "[S]\n ; k = [x]\nk = v\n".toList =
      IniParser.parse_file "[S]\nk = v\n".toList :=
  IniParser.blank_and_comment_lines_ignored "[S]\n ; k = [x]\nk = v\n".toList
    "[S]\nk = v\n".toList ["[S]".toList] " ; k = [x]".toList ["k = v".toList]
    (by decide) (by decide) (by decide)

theorem header_shape (t : Str) (h1 : t.head? = some '[') (h2 : t.getLast? = some ']') :
    ∃ mid, t = '[' :: (mid ++ [']']) := by
  cases t with
  | nil => simp at h1
  | cons c cs =>
    simp only [List.head?_cons, Option.some.injEq] at h1
    subst h1
    rcases List.eq_nil_or_concat cs with rfl | ⟨mid, b, rfl⟩
    · simp at h2
    · refine ⟨mid, ?_⟩
      simp only [List.concat_eq_append] at h2 ⊢
      have : ('[' :: (mid ++ [b])).getLast? = some b := by
        rw [← List.cons_append, List.getLast?_append_of_ne_nil _ (by simp)]
        rfl
      rw [this] at h2
      simp only [Option.some.injEq] at h2
      rw [h2]

theorem headerName_shape (mid : Str) : headerName ('[' :: (mid ++ [']'])) = trim mid := by
  simp [headerName]

/-- C19: a trimmed line that starts with an opening bracket and ends with a
closing bracket is a header whose name is the trimmed text strictly between
its first and last character, also when it contains the separator, and it
stores no pair; a line that starts with an opening bracket without ending with
a closing one is handled as a pair line (Syntax error when it has no
separator).  The line `[a]=[b]` opens the section `a]=[b`. -/
theorem IniParser.line_classification (st : ParseState) (raw : Str) :
    ((trim raw).head? = some '[' → (trim raw).getLast? = some ']' →
      ∃ mid, trim raw = '[' :: (mid ++ [']']) ∧
        IniParser.parse_line st raw = .ok ⟨st.data, trim mid⟩) ∧
    ((trim raw).head? = some '[' → (trim raw).getLast? ≠ some ']' →
      IniParser.parse_line st raw =
        if '=' ∉ trim raw then
          .error (.IniParserError ("Syntax error: ".toList ++ trim raw))
        else if st.current_section = [] then
          .error (.IniParserError outsideSectionMessage)
        else
          .ok ⟨Data.store st.data st.current_section
            (trim ((trim raw).takeWhile (fun c => c != '=')))
            (trim (((trim raw).dropWhile (fun c => c != '=')).drop 1)), st.current_section⟩) ∧
    IniParser.parse_line st "[a]=[b]".toList = .ok ⟨st.data, "a]=[b".toList⟩ := by
  refine ⟨?_, ?_, ?_⟩
  · intro h1 h2
    obtain ⟨mid, hmid⟩ := header_shape _ h1 h2
    refine ⟨mid, hmid, ?_⟩
    rw [IniParser.parse_line_eq]
    have hb : isBlankOrComment (trim raw) = false := by simp [isBlankOrComment, hmid]
    have hh : isHeader (trim raw) = true := by simp [isHeader, h1, h2]
    simp only [hb, hh, Bool.false_eq_true, if_false, if_true]
    rw [hmid, headerName_shape]
  · intro h1 h2
    rw [IniParser.parse_line_eq]
    have hb : isBlankOrComment (trim raw) = false := by
      cases ht : trim raw with
      | nil => simp [ht] at h1
      | cons c cs =>
        rw [ht] at h1
        simp only [List.head?_cons, Option.some.injEq] at h1
        subst h1
        simp [isBlankOrComment]
    have hh : isHeader (trim raw) = false := by simp [isHeader, h1, h2]
    simp only [hb, hh, Bool.false_eq_true, if_false]
    rfl
  · have ht : trim "[a]=[b]".toList = "[a]=[b]".toList := by decide
    rw [IniParser.parse_line_eq, ht]
    have hb : isBlankOrComment "[a]=[b]".toList = false := by decide
    have hh : isHeader "[a]=[b]".toList = true := by decide
    have hn : headerName "[a]=[b]".toList = "a]=[b".toList := by decide
    simp only [hb, hh, hn, Bool.false_eq_true, if_false, if_true]

theorem IniParser.line_classification_witness :
    (∃ mid, trim " [ a=b ] ".toList = '[' :: (mid ++ [']']) ∧
        IniParser.parse_line ⟨[], "S".toList⟩ " [ a=b ] ".toList = .ok ⟨[], trim mid⟩) ∧
      IniParser.parse_line ⟨[], "S".toList⟩ "[ab".toList =
        .error (.IniParserError "Syntax error: [ab".toList) :=
  ⟨(IniParser.line_classification ⟨[], "S".toList⟩ " [ a=b ] ".toList).1
      (by decide) (by decide),
    (IniParser.line_classification ⟨[], "S".toList⟩ "[ab".toList).2.1
      (by decide) (by decide)⟩

/-! ### When a line is accepted -/

theorem IniParser.insideNamedSection_iff (pre : List Str) (st : ParseState)
    (hpre : IniParser.parse_lines_from ParseState.init pre = .ok st) :
    insideNamedSection pre = true ↔ st.current_section ≠ [] := by
  have hcur := IniParser.current_section_eq st pre hpre
  unfold insideNamedSection
  cases hg : governingHeader pre with
  | none =>
    rw [hg] at hcur
    simp [hcur]
  | some name =>
    rw [hg] at hcur
    simp only [Option.getD_some] at hcur
    simp [hcur]

theorem IniParser.governingHeader_of_current (pre : List Str) (st : ParseState)
    (hpre : IniParser.parse_lines_from ParseState.init pre = .ok st)
    (hne : st.current_section ≠ []) : governingHeader pre = some st.current_section := by
  have hcur := IniParser.current_section_eq st pre hpre
  cases hg : governingHeader pre with
  | none => rw [hg] at hcur; exact absurd hcur hne
  | some g =>
    rw [hg] at hcur
    simp only [Option.getD_some] at hcur
    rw [hcur]

theorem IniParser.parse_line_error (st : ParseState) (raw : Str)
    (hb : isBlankOrComment (trim raw) = false) (hh : isHeader (trim raw) = false)
    (hn : ¬ ('=' ∈ trim raw ∧ st.current_section ≠ [])) :
    IniParser.parse_line st raw =
      .error (.IniParserError
        (if '=' ∈ trim raw then outsideSectionMessage
          else "Syntax error: ".toList ++ trim raw)) := by
  rw [IniParser.parse_line_eq]
  simp only [hb, hh, Bool.false_eq_true, if_false]
  by_cases hm : '=' ∈ trim raw
  · have hc : st.current_section = [] := by
      by_contra hc
      exact hn ⟨hm, hc⟩
    simp [hm, hc, outsideSectionMessage]
  · simp [hm]

theorem IniParser.parse_line_ok_iff (st : ParseState) (raw : Str) :
    (∃ st2, IniParser.parse_line st raw = .ok st2) ↔
      (isBlankOrComment (trim raw) = false → isHeader (trim raw) = false →
        ('=' ∈ trim raw ∧ st.current_section ≠ [])) := by
  constructor
  · rintro ⟨st2, h⟩ hb hh
    by_contra hn
    rw [IniParser.parse_line_error st raw hb hh hn] at h
    cases h
  · intro h
    rw [IniParser.parse_line_eq]
    cases hb : isBlankOrComment (trim raw) with
    | true => exact ⟨st, by simp⟩
    | false =>
      cases hh : isHeader (trim raw) with
      | true => exact ⟨⟨st.data, headerName (trim raw)⟩, by simp⟩
      | false =>
        obtain ⟨hm, hc⟩ := h hb hh
        exact ⟨⟨Data.store st.data st.current_section (pairKey (trim raw))
          (pairValue (trim raw)), st.current_section⟩, by simp [hm, hc]⟩

/-- An error of the loop is the error of one line, reached without error. -/
theorem IniParser.parse_lines_from_error (st : ParseState) (lines : List Str) (e : Error)
    (h : IniParser.parse_lines_from st lines = .error e) :
    ∃ pre raw post st1, lines = pre ++ raw :: post ∧
      IniParser.parse_lines_from st pre = .ok st1 ∧ IniParser.parse_line st1 raw = .error e := by
  induction lines generalizing st with
  | nil => simp [IniParser.parse_lines_from] at h
  | cons raw rest ih =>
    simp only [IniParser.parse_lines_from] at h
    cases h2 : IniParser.parse_line st raw with
    | error e2 =>
      rw [h2] at h
      simp only [Except.error.injEq] at h
      subst h
      exact ⟨[], raw, rest, st, rfl, rfl, h2⟩
    | ok st2 =>
      rw [h2] at h
      obtain ⟨pre, r, post, st1, hs, hp, hl⟩ := ih st2 h
      refine ⟨raw :: pre, r, post, st1, by simp [hs], ?_, hl⟩
      simp only [IniParser.parse_lines_from, h2]
      exact hp

theorem IniParser.parse_lines_from_accepted (lines : List Str)
    (h : ∀ pre raw post, lines = pre ++ raw :: post → lineAccepted pre raw) :
    ∃ st, IniParser.parse_lines_from ParseState.init lines = .ok st := by
  induction lines using List.reverseRecOn with
  | nil => exact ⟨_, rfl⟩
  | append_singleton l r ih =>
    obtain ⟨st, hst⟩ := ih (fun pre raw post hs =>
      h pre raw (post ++ [r]) (by simp [hs]))
    have hacc := h l r [] rfl
    obtain ⟨st2, h2⟩ := (IniParser.parse_line_ok_iff st r).2 (fun hb hh => by
      obtain ⟨hm, hin⟩ := hacc hb hh
      exact ⟨hm, (IniParser.insideNamedSection_iff l st hst).1 hin⟩)
    exact ⟨st2, IniParser.parse_lines_from_snoc _ _ _ l r hst h2⟩

/-- C20: construction succeeds if and only if every line that after trimming
is non-empty, not a comment and not a header contains the separator and comes
after a header whose most recent occurrence has a non-empty trimmed name;
otherwise it fails at the first line violating this, with a Syntax error when
that line has no separator and with the pair-outside-section error when it
has one. -/
theorem IniParser.construction_succeeds_iff (lines : List Str) :
    ((∃ data, IniParser.parse_lines lines = .ok data) ↔
      ∀ pre raw post, lines = pre ++ raw :: post → lineAccepted pre raw) ∧
    (∀ pre raw post, lines = pre ++ raw :: post →
      (∀ p2 r2 q2, pre = p2 ++ r2 :: q2 → lineAccepted p2 r2) →
      ¬ lineAccepted pre raw →
      IniParser.parse_lines lines =
        .error (.IniParserError
          (if '=' ∈ trim raw then outsideSectionMessage
            else "Syntax error: ".toList ++ trim raw))) := by
  constructor
  · constructor
    · rintro ⟨data, hd⟩ pre raw post hs hb hh
      obtain ⟨stf, hrun, -⟩ := IniParser.parse_lines_ok _ _ hd
      rw [hs] at hrun
      obtain ⟨st1, st2, h1, h2, -⟩ := IniParser.parse_lines_from_split _ _ _ _ _ hrun
      obtain ⟨hm, hc⟩ := (IniParser.parse_line_ok_iff st1 raw).1 ⟨st2, h2⟩ hb hh
      exact ⟨hm, (IniParser.insideNamedSection_iff pre st1 h1).2 hc⟩
    · intro h
      obtain ⟨st, hst⟩ := IniParser.parse_lines_from_accepted lines h
      exact ⟨st.data, by simp [IniParser.parse_lines, hst]⟩
  · intro pre raw post hs hpre hnot
    obtain ⟨st, hst⟩ := IniParser.parse_lines_from_accepted pre hpre
    have hb : isBlankOrComment (trim raw) = false := by
      by_contra hb
      exact hnot (fun h _ => absurd h hb)
    have hh : isHeader (trim raw) = false := by
      by_contra hh
      exact hnot (fun _ h => absurd h hh)
    have hn : ¬ ('=' ∈ trim raw ∧ st.current_section ≠ []) := by
      rintro ⟨hm, hc⟩
      exact hnot (fun _ _ => ⟨hm, (IniParser.insideNamedSection_iff pre st hst).2 hc⟩)
    have hl := IniParser.parse_line_error st raw hb hh hn
    unfold IniParser.parse_lines
    rw [hs, IniParser.parse_lines_from_append, hst]
    simp only [IniParser.parse_lines_from, hl]

theorem IniParser.construction_succeeds_iff_witness :
    IniParser.parse_lines ["[S]".toList, "k = v".toList, "[]".toList, "j = w".toList] =
      .error (.IniParserError outsideSectionMessage) :=
  (IniParser.construction_succeeds_iff
      ["[S]".toList, "k = v".toList, "[]".toList, "j = w".toList]).2
    ["[S]".toList, "k = v".toList, "[]".toList] "j = w".toList [] rfl
    (by
      intro p2 r2 q2 h
      rcases p2 with _ | ⟨a, _ | ⟨b, _ | ⟨c, p3⟩⟩⟩
      · simp only [List.nil_append, List.cons.injEq] at h
        obtain ⟨rfl, -⟩ := h
        decide
      · simp only [List.cons_append, List.nil_append, List.cons.injEq] at h
        obtain ⟨rfl, rfl, -⟩ := h
        decide
      · simp only [List.cons_append, List.nil_append, List.cons.injEq] at h
        obtain ⟨rfl, rfl, rfl, -⟩ := h
        decide
      · simp at h)
    (by decide)

/-- C13 (counterexample): after the header `[]`, and after `[  ]`, the pair line
`k = v` makes construction fail with the pair-outside-section error, although
a header precedes it. -/
theorem IniParser.pair_after_empty_header_fails :
    IniParser.parse_file "[]\nk = v\n".toList =
        .error (.IniParserError outsideSectionMessage) ∧
      IniParser.parse_file "[  ]\nk = v\n".toList =
        .error (.IniParserError outsideSectionMessage) := by
  constructor <;> decide

/-- C13 (amended): a pair line fails with the pair-outside-section error
exactly when the current section name is empty, that is when no header
precedes it or when the most recent header has an empty trimmed name; after a
header of non-empty name the pair is stored under that name. -/
theorem IniParser.pair_needs_named_section {F : Type} (strtod : Str → StrtodResult F)
    (pre : List Str) (st : ParseState) (raw : Str) (post : List Str)
    (hpre : IniParser.parse_lines_from ParseState.init pre = .ok st)
    (hp : isPairLine (trim raw) = true) :
    ((governingHeader pre = none ∨ governingHeader pre = some []) →
      IniParser.parse_lines (pre ++ raw :: post) =
        .error (.IniParserError outsideSectionMessage)) ∧
    (∀ name, governingHeader pre = some name → name ≠ [] →
      ∃ data, IniParser.parse_lines (pre ++ [raw]) = .ok data ∧
        IniParser.get_value strtod data .string name (pairKey (trim raw)) =
          .ok (pairValue (trim raw))) := by
  have hcur := IniParser.current_section_eq st pre hpre
  have hp2 := hp
  simp only [isPairLine, Bool.and_eq_true, Bool.not_eq_true', decide_eq_true_eq] at hp2
  obtain ⟨⟨hb, hh⟩, hm⟩ := hp2
  constructor
  · intro hg
    have hc : st.current_section = [] := by
      rcases hg with hg | hg <;> simp [hcur, hg]
    have hl := IniParser.parse_line_error st raw hb hh (by simp [hc])
    simp only [hm, if_true] at hl
    unfold IniParser.parse_lines
    rw [IniParser.parse_lines_from_append, hpre]
    simp only [IniParser.parse_lines_from, hl]
  · intro name hg hne
    have hc : st.current_section = name := by simp [hcur, hg]
    obtain ⟨data, h1, h2⟩ := IniParser.parse_lines_snoc_pair pre st raw hpre (by
      rw [hc]
      exact hne) hp
    rw [hc] at h2
    exact ⟨data, h1, IniParser.get_value_string_of_raw strtod data _ _ _ h2⟩

theorem IniParser.pair_needs_named_section_witness :
    IniParser.parse_lines (["[S]".toList, "[ ]".toList] ++ "k = v".toList :: ["[T]".toList]) =
        .error (.IniParserError outsideSectionMessage) ∧
      ∃ data, IniParser.parse_lines (["[]".toList, "[S]".toList] ++ ["k = v".toList]) =
          .ok data ∧
        IniParser.get_value strtod_none data .string "S".toList (pairKey (trim "k = v".toList)) =
          .ok (pairValue (trim "k = v".toList)) :=
  ⟨(IniParser.pair_needs_named_section strtod_none ["[S]".toList, "[ ]".toList]
      ⟨[], []⟩ "k = v".toList ["[T]".toList] (by decide) (by decide)).1 (by decide),
    (IniParser.pair_needs_named_section strtod_none ["[]".toList, "[S]".toList]
      ⟨[], "S".toList⟩ "k = v".toList [] (by decide) (by decide)).2 "S".toList
      (by decide) (by decide)⟩

/-- C14 (counterexample): the line `  oops ` (two leading spaces, one trailing
space) fails with the message `Syntax error: oops`, which does not contain the
line as it appears in the input. -/
theorem IniParser.syntax_error_drops_blanks :
    IniParser.parse_file "[S]\n  oops \n".toList =
        .error (.IniParserError "Syntax error: oops".toList) ∧
      ¬ ("  oops ".toList <:+: "Syntax error: oops".toList) := by
  constructor <;> decide

/-- C14 (amended): when construction fails with a Syntax error, the message is
exactly "Syntax error: " followed by the TRIMMED text of the offending line,
and so includes that trimmed text, for every such line; the offending line is
the line at which the loop stops, the lines before it being processed without
error. -/
theorem IniParser.syntax_error_names_trimmed_line (text msg : Str)
    (h : IniParser.parse_file text = .error (.IniParserError msg))
    (hs : "Syntax error: ".toList <+: msg) :
    ∃ pre raw post, getlines text = pre ++ raw :: post ∧
      msg = "Syntax error: ".toList ++ trim raw ∧ trim raw <:+: msg ∧
      isBlankOrComment (trim raw) = false ∧ isHeader (trim raw) = false ∧
      '=' ∉ trim raw ∧
      ∃ st, IniParser.parse_lines_from ParseState.init pre = .ok st := by
  unfold IniParser.parse_file IniParser.parse_lines at h
  cases hrun : IniParser.parse_lines_from ParseState.init (getlines text) with
  | ok st => rw [hrun] at h; cases h
  | error e =>
    rw [hrun] at h
    simp only [Except.error.injEq] at h
    subst h
    obtain ⟨pre, raw, post, st1, hsplit, hpre, hl⟩ :=
      IniParser.parse_lines_from_error _ _ _ hrun
    refine ⟨pre, raw, post, hsplit, ?_⟩
    have hb : isBlankOrComment (trim raw) = false := by
      by_contra hb
      rw [IniParser.parse_line_skipped st1 raw (by simpa using hb)] at hl
      cases hl
    have hh : isHeader (trim raw) = false := by
      by_contra hh
      rw [IniParser.parse_line_eq] at hl
      simp only [hb, Bool.false_eq_true, if_false] at hl
      rw [if_pos (by simpa using hh)] at hl
      cases hl
    rw [IniParser.parse_line_eq] at hl
    simp only [hb, hh, Bool.false_eq_true, if_false] at hl
    by_cases hm : '=' ∈ trim raw
    · exfalso
      simp only [hm, not_true_eq_false, if_false] at hl
      split_ifs at hl
      simp only [Except.error.injEq, Error.IniParserError.injEq] at hl
      rw [← hl] at hs
      revert hs
      decide
    · simp only [hm, not_false_eq_true, if_true, Except.error.injEq,
        Error.IniParserError.injEq] at hl
      refine ⟨hl.symm, ?_, hb, hh, hm, st1, hpre⟩
      rw [← hl]
      exact List.suffix_append _ _ |>.isInfix

theorem IniParser.syntax_error_names_trimmed_line_witness :
    ∃ pre raw post, getlines "[S]\n  oops \n".toList = pre ++ raw :: post ∧
      "Syntax error: oops".toList = "Syntax error: ".toList ++ trim raw ∧
      trim raw <:+: "Syntax error: oops".toList ∧
      isBlankOrComment (trim raw) = false ∧ isHeader (trim raw) = false ∧
      '=' ∉ trim raw ∧
      ∃ st, IniParser.parse_lines_from ParseState.init pre = .ok st :=
  IniParser.syntax_error_names_trimmed_line "[S]\n  oops \n".toList
    "Syntax error: oops".toList (by decide) (by decide)

/-! ### What `trim` removes -/

theorem isBlank_iff (c : Char) : isBlank c = true ↔ c ∈ " \t".toList := by
  simp [isBlank]

theorem isBlank_eq_false_iff (c : Char) : isBlank c = false ↔ c ∉ " \t".toList := by
  rw [← isBlank_iff]
  simp

theorem find_last_not_of_none (s chars : Str) (h : find_last_not_of s chars = none) :
    ∀ c ∈ s, c ∈ chars := by
  induction s with
  | nil => simp
  | cons c cs ih =>
    simp only [find_last_not_of] at h
    cases hl : find_last_not_of cs chars with
    | some i => rw [hl] at h; cases h
    | none =>
      rw [hl] at h
      have hc : c ∈ chars := by
        by_contra hc
        simp [hc] at h
      intro x hx
      rcases List.mem_cons.1 hx with rfl | hx
      · exact hc
      · exact ih hl x hx

theorem find_last_not_of_some (s chars : Str) (e : Nat)
    (h : find_last_not_of s chars = some e) :
    ∃ a b t, s = a ++ b :: t ∧ a.length = e ∧ b ∉ chars ∧ ∀ c ∈ t, c ∈ chars := by
  induction s generalizing e with
  | nil => simp [find_last_not_of] at h
  | cons c cs ih =>
    simp only [find_last_not_of] at h
    cases hl : find_last_not_of cs chars with
    | some i =>
      rw [hl] at h
      simp only [Option.some.injEq] at h
      obtain ⟨a, b, t, hs, hlen, hb, ht⟩ := ih i hl
      exact ⟨c :: a, b, t, by simp [hs], by simp [hlen, h], hb, ht⟩
    | none =>
      rw [hl] at h
      have hc : c ∉ chars := by
        intro hc
        simp [hc] at h
      simp only [hc, if_false, Option.some.injEq] at h
      exact ⟨[], c, cs, rfl, by simp [h], hc, find_last_not_of_none cs chars hl⟩

theorem trim_cons_nonblank (c : Char) (cs : Str) (hc : c ∉ " \t".toList) :
    ∃ a b t, c :: cs = a ++ b :: t ∧ b ∉ " \t".toList ∧ (∀ x ∈ t, x ∈ " \t".toList) ∧
      trim (c :: cs) = a ++ [b] := by
  cases hl : find_last_not_of (c :: cs) " \t".toList with
  | none => exact absurd (find_last_not_of_none _ _ hl c (List.mem_cons_self _ _)) hc
  | some e =>
    obtain ⟨a, b, t, hs, hlen, hb, ht⟩ := find_last_not_of_some _ _ e hl
    refine ⟨a, b, t, hs, hb, ht, ?_⟩
    unfold trim
    rw [hl]
    simp only [find_first_not_of, hc, if_false, substr, List.drop_zero, Nat.sub_zero]
    rw [hs, ← hlen, List.take_append_eq_append_take]
    simp

/-- The parts of a string around its trimmed text consist of spaces and tabs,
and the trimmed text neither starts nor ends with one. -/
theorem trim_decomposition (s : Str) :
    ∃ pre suf, s = pre ++ trim s ++ suf ∧ (∀ c ∈ pre, isBlank c = true) ∧
      (∀ c ∈ suf, isBlank c = true) ∧
      (∀ a, (trim s).head? = some a → isBlank a = false) ∧
      (∀ b, (trim s).getLast? = some b → isBlank b = false) := by
  induction s with
  | nil => exact ⟨[], [], by decide, by simp, by simp, by simp [trim, find_first_not_of],
      by simp [trim, find_first_not_of]⟩
  | cons c cs ih =>
    by_cases hc : c ∈ " \t".toList
    · obtain ⟨pre, suf, hs, hpre, hsuf, hhead, hlast⟩ := ih
      rw [trim_cons_blank c cs hc]
      refine ⟨c :: pre, suf, ?_, ?_, hsuf, hhead, hlast⟩
      · simp only [List.cons_append, List.cons.injEq, true_and]
        exact hs
      · intro x hx
        rcases List.mem_cons.1 hx with rfl | hx
        · exact (isBlank_iff _).2 hc
        · exact hpre x hx
    · obtain ⟨a, b, t, hs, hb, ht, htrim⟩ := trim_cons_nonblank c cs hc
      rw [htrim]
      refine ⟨[], t, by simp [hs], by simp, fun x hx => (isBlank_iff _).2 (ht x hx), ?_, ?_⟩
      · intro x hx
        cases a with
        | nil =>
          simp only [List.nil_append, List.head?_cons, Option.some.injEq] at hx
          subst hx
          exact (isBlank_eq_false_iff _).2 hb
        | cons a0 a1 =>
          simp only [List.cons_append, List.cons.injEq] at hs
          simp only [List.cons_append, List.head?_cons, Option.some.injEq] at hx
          rw [← hx, ← hs.1]
          exact (isBlank_eq_false_iff _).2 hc
      · intro x hx
        simp only [List.getLast?_append, List.getLast?_singleton, Option.or_some,
          Option.some.injEq] at hx
        rw [← hx]
        exact (isBlank_eq_false_iff _).2 hb

theorem dropWhile_append_stop (p : Char → Bool) (a b : Str) (ha : ∀ c ∈ a, p c = true)
    (hb : ∀ x, b.head? = some x → p x = false) : (a ++ b).dropWhile p = b := by
  induction a with
  | nil =>
    cases b with
    | nil => rfl
    | cons x xs => simp [List.dropWhile_cons, hb x rfl]
  | cons c cs ih =>
    have h1 := ih (fun x hx => ha x (List.mem_cons_of_mem _ hx))
    simp [List.dropWhile_cons, ha c (List.mem_cons_self _ _), h1]

theorem trim_eq_stripBlanks (s : Str) : trim s = stripBlanks s := by
  obtain ⟨pre, suf, hs, hpre, hsuf, hhead, hlast⟩ := trim_decomposition s
  generalize trim s = m at hs hhead hlast
  subst hs
  unfold stripBlanks
  cases m with
  | nil =>
    have h0 : (pre ++ [] ++ suf).dropWhile isBlank = [] := by
      rw [List.dropWhile_eq_nil_iff]
      intro x hx
      simp only [List.append_nil, List.mem_append] at hx
      rcases hx with hx | hx
      · exact hpre x hx
      · exact hsuf x hx
    rw [h0]
    rfl
  | cons x m1 =>
    have h1 : (pre ++ x :: m1 ++ suf).dropWhile isBlank = x :: m1 ++ suf := by
      rw [List.append_assoc]
      exact dropWhile_append_stop isBlank pre _ hpre (by
        intro y hy
        simp only [List.cons_append, List.head?_cons, Option.some.injEq] at hy
        exact hhead y (by simp [hy]))
    rw [h1, List.reverse_append]
    rw [dropWhile_append_stop isBlank suf.reverse (x :: m1).reverse (by simpa using hsuf) (by
      intro y hy
      rw [List.head?_reverse] at hy
      exact hlast y hy)]
    simp

/-- C17: `trim s` is `s` without its longest prefix and its longest suffix of
spaces and tabs: it is empty when `s` is empty or made of spaces and tabs only,
it neither starts nor ends with a space or tab, and no other character (a
carriage return, for one) is removed. -/
theorem trim_removes_outer_blanks (s : Str) :
    trim s = stripBlanks s ∧
    ((∀ c ∈ s, isBlank c = true) → trim s = []) ∧
    (∀ a, (trim s).head? = some a → isBlank a = false) ∧
    (∀ b, (trim s).getLast? = some b → isBlank b = false) ∧
    (∃ pre suf, s = pre ++ trim s ++ suf ∧ (∀ c ∈ pre, isBlank c = true) ∧
      (∀ c ∈ suf, isBlank c = true)) ∧
    (∀ c ∈ s, isBlank c = false → c ∈ trim s) := by
  obtain ⟨pre, suf, hs, hpre, hsuf, hhead, hlast⟩ := trim_decomposition s
  refine ⟨trim_eq_stripBlanks s, ?_, hhead, hlast, ⟨pre, suf, hs, hpre, hsuf⟩, ?_⟩
  · intro hall
    cases ht : trim s with
    | nil => rfl
    | cons x xs =>
      exfalso
      have hx : x ∈ s := by
        rw [hs, ht]
        simp
      have h1 := hall x hx
      rw [hhead x (by simp [ht])] at h1
      cases h1
  · intro c hc hnb
    rw [hs] at hc
    simp only [List.mem_append] at hc
    rcases hc with (hc | hc) | hc
    · rw [hpre c hc] at hnb
      cases hnb
    · exact hc
    · rw [hsuf c hc] at hnb
      cases hnb

theorem trim_removes_outer_blanks_witness :
    (∀ c ∈ " \t ".toList, isBlank c = true) ∧ trim " \t ".toList = [] ∧
      trim "\r a b\t".toList = "\r a b".toList :=
  ⟨by decide, (trim_removes_outer_blanks " \t ".toList).2.1 (by decide), by decide⟩

/-! ### Which sections and keys a Document holds -/

theorem split_snoc {α : Type} (l : List α) (r : α) (P : List α → α → Prop) :
    (∃ pre x post, l ++ [r] = pre ++ x :: post ∧ P pre x) ↔
      (∃ pre x post, l = pre ++ x :: post ∧ P pre x) ∨ P l r := by
  constructor
  · rintro ⟨pre, x, post, hs, hP⟩
    rcases List.eq_nil_or_concat post with rfl | ⟨post1, y, rfl⟩
    · have h1 : l ++ [r] = pre ++ [x] := hs
      obtain ⟨h2, h3⟩ := List.append_inj' h1 rfl
      simp only [List.cons.injEq, and_true] at h3
      subst h2 h3
      exact Or.inr hP
    · simp only [List.concat_eq_append] at hs
      have h1 : l ++ [r] = (pre ++ x :: post1) ++ [y] := by simp [hs]
      obtain ⟨h2, -⟩ := List.append_inj' h1 rfl
      exact Or.inl ⟨pre, x, post1, h2, hP⟩
  · rintro (⟨pre, x, post, hs, hP⟩ | hP)
    · exact ⟨pre, x, post ++ [r], by simp [hs], hP⟩
    · exact ⟨l, r, [], rfl, hP⟩

theorem IniParser.parse_line_find (st st2 : ParseState) (raw s : Str)
    (h : IniParser.parse_line st raw = .ok st2) :
    StrMap.find st2.data s ≠ none ↔
      (isPairLine (trim raw) = true ∧ st.current_section = s) ∨
        StrMap.find st.data s ≠ none := by
  rw [IniParser.parse_line_eq] at h
  cases hb : isBlankOrComment (trim raw) with
  | true =>
    simp only [hb, if_true, Except.ok.injEq] at h
    subst h
    simp [isPairLine, hb]
  | false =>
    cases hh : isHeader (trim raw) with
    | true =>
      simp only [hb, hh, Bool.false_eq_true, if_true, if_false, Except.ok.injEq] at h
      subst h
      simp [isPairLine, hh]
    | false =>
      simp only [hb, hh, Bool.false_eq_true, if_false] at h
      split_ifs at h with hm hc
      simp only [Except.ok.injEq] at h
      subst h
      have hp : isPairLine (trim raw) = true := by
        simp only [not_not] at hm
        simp [isPairLine, hb, hh, hm]
      simp only [Data.store, StrMap.find_assign, hp, true_and]
      by_cases hs : st.current_section = s <;> simp [hs]

theorem IniParser.snoc_run (l : List Str) (r : Str) (st : ParseState)
    (h : IniParser.parse_lines_from ParseState.init (l ++ [r]) = .ok st) :
    ∃ st1, IniParser.parse_lines_from ParseState.init l = .ok st1 ∧
      IniParser.parse_line st1 r = .ok st := by
  obtain ⟨st1, st2, h1, h2, h3⟩ := IniParser.parse_lines_from_split _ _ l r [] h
  simp only [IniParser.parse_lines_from, Except.ok.injEq] at h3
  subst h3
  exact ⟨st1, h1, h2⟩

/-- A pair line that is processed is governed by the header whose name is the
current section. -/
theorem IniParser.pair_current_iff (l : List Str) (r : Str) (st1 st2 : ParseState) (s : Str)
    (h1 : IniParser.parse_lines_from ParseState.init l = .ok st1)
    (h2 : IniParser.parse_line st1 r = .ok st2) (hp : isPairLine (trim r) = true) :
    st1.current_section = s ↔ governingHeader l = some s := by
  have hne := IniParser.parse_line_pair_section st1 st2 r h2 hp
  have hg := IniParser.governingHeader_of_current l st1 h1 hne
  rw [hg]
  simp

/-- The sections of the Document are the names of the headers that govern a
pair line. -/
theorem IniParser.section_present_iff (lines : List Str) (st : ParseState) (s : Str)
    (hrun : IniParser.parse_lines_from ParseState.init lines = .ok st) :
    StrMap.find st.data s ≠ none ↔
      ∃ pre raw post, lines = pre ++ raw :: post ∧ pairUnder s pre raw := by
  induction lines using List.reverseRecOn generalizing st with
  | nil =>
    simp only [IniParser.parse_lines_from, Except.ok.injEq] at hrun
    subst hrun
    simp [ParseState.init, StrMap.find]
  | append_singleton l r ih =>
    obtain ⟨st1, h1, h2⟩ := IniParser.snoc_run l r st hrun
    rw [split_snoc l r (pairUnder s), IniParser.parse_line_find st1 st r s h2, ih st1 h1]
    constructor
    · rintro (⟨hp, hc⟩ | h)
      · exact Or.inr ⟨hp, (IniParser.pair_current_iff l r st1 st s h1 h2 hp).1 hc⟩
      · exact Or.inl h
    · rintro (h | ⟨hp, hg⟩)
      · exact Or.inr h
      · exact Or.inl ⟨hp, (IniParser.pair_current_iff l r st1 st s h1 h2 hp).2 hg⟩

/-- The keys of a section of the Document are the keys of the pair lines
governed by a header of its name. -/
theorem IniParser.raw_present_iff (lines : List Str) (st : ParseState) (s k : Str)
    (hrun : IniParser.parse_lines_from ParseState.init lines = .ok st) :
    Data.raw st.data s k ≠ none ↔
      ∃ pre raw post, lines = pre ++ raw :: post ∧ definesKey s k pre raw := by
  induction lines using List.reverseRecOn generalizing st with
  | nil =>
    simp only [IniParser.parse_lines_from, Except.ok.injEq] at hrun
    subst hrun
    simp [ParseState.init, Data.raw, StrMap.find]
  | append_singleton l r ih =>
    obtain ⟨st1, h1, h2⟩ := IniParser.snoc_run l r st hrun
    rw [split_snoc l r (definesKey s k), IniParser.parse_line_raw st1 st r s k h2, ← ih st1 h1]
    by_cases hc : isPairLine (trim r) = true ∧ st1.current_section = s ∧ pairKey (trim r) = k
    · rw [if_pos hc]
      simp only [ne_eq, reduceCtorEq, not_false_eq_true, true_iff]
      exact Or.inr ⟨hc.1, hc.2.2,
        (IniParser.pair_current_iff l r st1 st s h1 h2 hc.1).1 hc.2.1⟩
    · rw [if_neg hc]
      constructor
      · exact Or.inl
      · rintro (h | ⟨hp, hk, hg⟩)
        · exact h
        · exact absurd ⟨hp, (IniParser.pair_current_iff l r st1 st s h1 h2 hp).2 hg, hk⟩ hc

/-- A pair line that is processed inside the lines of a successful run has a
governing header of non-empty name. -/
theorem IniParser.pairUnder_nonempty (lines : List Str) (st : ParseState) (s : Str)
    (pre : List Str) (raw : Str) (post : List Str)
    (hrun : IniParser.parse_lines_from ParseState.init lines = .ok st)
    (hs : lines = pre ++ raw :: post) (hp : pairUnder s pre raw) : s ≠ [] := by
  rw [hs] at hrun
  obtain ⟨st1, st2, h1, h2, -⟩ := IniParser.parse_lines_from_split _ _ _ _ _ hrun
  have hne := IniParser.parse_line_pair_section st1 st2 raw h2 hp.1
  rw [(IniParser.pair_current_iff pre raw st1 st2 s h1 h2 hp.1).2 hp.2] at hne
  exact hne

theorem StrMap.find_ne_none_of_mem {V : Type} (m : StrMap V) (key : Str) (v : V)
    (h : (key, v) ∈ m) : StrMap.find m key ≠ none := by
  induction m with
  | nil => simp at h
  | cons hd tl ih =>
    obtain ⟨k, w⟩ := hd
    by_cases hk : k = key
    · simp [StrMap.find, hk]
    · simp only [StrMap.find, hk, if_false]
      apply ih
      rcases List.mem_cons.1 h with h | h
      · simp only [Prod.mk.injEq] at h
        exact absurd h.1.symm hk
      · exact h

theorem stoi_error (raw : Str) (e : Error) (h : stoi raw = .error e) :
    e = .invalid_argument ∨ e = .out_of_range := by
  unfold stoi at h
  simp only at h
  split_ifs at h <;> first
    | (cases h; exact Or.inl rfl)
    | (cases h; exact Or.inr rfl)

theorem stod_error {F : Type} (strtod : Str → StrtodResult F) (raw : Str) (e : Error)
    (h : stod strtod raw = .error e) : e = .invalid_argument ∨ e = .out_of_range := by
  unfold stod at h
  simp only at h
  split_ifs at h <;> first
    | (cases h; exact Or.inl rfl)
    | (cases h; exact Or.inr rfl)

/-- A query into a section that is present never reports the section missing. -/
theorem IniParser.get_value_present {F : Type} (strtod : Str → StrtodResult F) (data : Data)
    (T : Ty) (s k : Str) (keys : StrMap Str) (hs : StrMap.find data s = some keys) :
    IniParser.get_value strtod data T s k ≠
      .error (.IniParserError ("Section not found: ".toList ++ s)) := by
  simp only [IniParser.get_value, hs]
  cases hk : StrMap.find keys k with
  | none =>
    intro h
    simp at h
  | some raw =>
    simp only
    cases T with
    | int =>
      unfold IniParser.convert_value
      simp only
      cases hst : stoi raw with
      | error e =>
        rcases stoi_error raw e hst with rfl | rfl <;> simp
      | ok r =>
        obtain ⟨result, processed⟩ := r
        simp only
        split_ifs
        · intro h
          simp at h
        · simp
    | double =>
      unfold IniParser.convert_value
      simp only
      cases hst : stod strtod (replace raw ',' '.') with
      | error e =>
        rcases stod_error strtod _ e hst with rfl | rfl <;> simp
      | ok r =>
        obtain ⟨result, processed⟩ := r
        simp only
        split_ifs
        · intro h
          simp at h
        · simp
    | string => simp [IniParser.convert_value]

/-- C12 (counterexample): the input `[S]` alone parses to a Document without
any section, and `get_value("S", "k")` fails with "Section not found: S". -/
theorem IniParser.header_alone_creates_no_section :
    IniParser.parse_file "[S]\n".toList = .ok [] ∧
      IniParser.get_value strtod_none [] .string "S".toList "k".toList =
        .error (.IniParserError "Section not found: S".toList) := by
  constructor <;> decide

/-- C12 (amended): a header alone does not create its section; section `s` is
present in the Document exactly when some pair line is governed by a header of
trimmed name `s`.  With such a pair line `get_value(s, k)` never fails with
"Section not found"; without one it fails with "Section not found: " and `s`
for every `k` and every type. -/
theorem IniParser.section_created_by_pair {F : Type} (strtod : Str → StrtodResult F)
    (text : Str) (data : Data) (s : Str)
    (h : IniParser.parse_file text = .ok data) :
    ((∃ pre raw post, getlines text = pre ++ raw :: post ∧ pairUnder s pre raw) →
      (∃ keys, StrMap.find data s = some keys) ∧
        ∀ T k, IniParser.get_value strtod data T s k ≠
          .error (.IniParserError ("Section not found: ".toList ++ s))) ∧
    ((¬ ∃ pre raw post, getlines text = pre ++ raw :: post ∧ pairUnder s pre raw) →
      ∀ T k, IniParser.get_value strtod data T s k =
        .error (.IniParserError ("Section not found: ".toList ++ s))) := by
  obtain ⟨st, hrun, rfl⟩ := IniParser.parse_lines_ok _ _ h
  have hiff := IniParser.section_present_iff (getlines text) st s hrun
  constructor
  · intro hex
    have hne := hiff.2 hex
    cases hf : StrMap.find st.data s with
    | none => exact absurd hf hne
    | some keys =>
      exact ⟨⟨keys, rfl⟩, fun T k => IniParser.get_value_present strtod st.data T s k keys hf⟩
  · intro hno T k
    have hf : StrMap.find st.data s = none := by
      by_contra hf
      exact hno (hiff.1 hf)
    simp [IniParser.get_value, hf]

theorem IniParser.section_created_by_pair_witness :
    IniParser.get_value strtod_none [("T".toList, [("k".toList, "v".toList)])]
        .int "S".toList "k".toList =
      .error (.IniParserError "Section not found: S".toList) :=
  (IniParser.section_created_by_pair strtod_none "[S]\n[T]\nk = v\n".toList
      [("T".toList, [("k".toList, "v".toList)])] "S".toList (by decide)).2
    (by
      rintro ⟨pre, raw, post, hs, hp⟩
      have hl : getlines "[S]\n[T]\nk = v\n".toList =
          ["[S]".toList, "[T]".toList, "k = v".toList] := by decide
      rw [hl] at hs
      rcases pre with _ | ⟨a, _ | ⟨b, _ | ⟨c, p3⟩⟩⟩
      · simp only [List.nil_append, List.cons.injEq] at hs
        obtain ⟨rfl, -⟩ := hs
        revert hp
        decide
      · simp only [List.cons_append, List.nil_append, List.cons.injEq] at hs
        obtain ⟨rfl, rfl, -⟩ := hs
        revert hp
        decide
      · simp only [List.cons_append, List.nil_append, List.cons.injEq] at hs
        obtain ⟨rfl, rfl, rfl, -⟩ := hs
        revert hp
        decide
      · simp at hs)
    .int "k".toList

/-- C15: in every Document produced by a successful construction, every
section name is a non-empty string. -/
theorem IniParser.section_names_nonempty (text : Str) (data : Data)
    (h : IniParser.parse_file text = .ok data) :
    (∀ s, StrMap.find data s ≠ none → s ≠ []) ∧ (∀ entry ∈ data, entry.1 ≠ []) := by
  obtain ⟨st, hrun, rfl⟩ := IniParser.parse_lines_ok _ _ h
  have key : ∀ s, StrMap.find st.data s ≠ none → s ≠ [] := by
    intro s hs
    obtain ⟨pre, raw, post, hsplit, hp⟩ :=
      (IniParser.section_present_iff (getlines text) st s hrun).1 hs
    exact IniParser.pairUnder_nonempty _ st s pre raw post hrun hsplit hp
  refine ⟨key, ?_⟩
  rintro ⟨s, keys⟩ hmem
  exact key s (StrMap.find_ne_none_of_mem _ s keys hmem)

theorem IniParser.section_names_nonempty_witness :
    (∀ s, StrMap.find [("S".toList, [("k".toList, "v".toList)])] s ≠ none → s ≠ []) ∧
      (∀ entry ∈ ([("S".toList, [("k".toList, "v".toList)])] : Data), entry.1 ≠ []) :=
  IniParser.section_names_nonempty "[]\n[S]\nk = v\n[ ]\n".toList
    [("S".toList, [("k".toList, "v".toList)])] (by decide)

/-- C16 (counterexample): the pair line `= v` inside section `S` stores the
empty key, which `get_value<string>("S", "")` then finds. -/
theorem IniParser.empty_key_is_stored :
    IniParser.parse_file "[S]\n= v\n".toList = .ok [("S".toList, [([], "v".toList)])] ∧
      IniParser.get_value strtod_none [("S".toList, [([], "v".toList)])] .string "S".toList [] =
        .ok "v".toList := by
  constructor <;> decide

/-- C16 (amended): in every Document produced by a successful construction,
every key stored in a section is the trimmed text before the first separator
of a pair line governed by a header of that section name; it neither starts
nor ends with a space or tab, and it may be the empty string. -/
theorem IniParser.stored_key_is_trimmed_key_text (text : Str) (data : Data) (s k v : Str)
    (keys : StrMap Str)
    (h : IniParser.parse_file text = .ok data)
    (hs : StrMap.find data s = some keys) (hk : StrMap.find keys k = some v) :
    (∃ pre raw post, getlines text = pre ++ raw :: post ∧ isPairLine (trim raw) = true ∧
      governingHeader pre = some s ∧
      k = trim ((trim raw).takeWhile (fun c => c != '='))) ∧
    (∀ a, k.head? = some a → isBlank a = false) ∧
    (∀ b, k.getLast? = some b → isBlank b = false) := by
  obtain ⟨st, hrun, rfl⟩ := IniParser.parse_lines_ok _ _ h
  have hraw : Data.raw st.data s k ≠ none := by simp [Data.raw, hs, hk]
  obtain ⟨pre, raw, post, hsplit, hp, hkey, hg⟩ :=
    (IniParser.raw_present_iff (getlines text) st s k hrun).1 hraw
  obtain ⟨-, -, -, -, -, hhead, hlast⟩ :=
    trim_decomposition ((trim raw).takeWhile (fun c => c != '='))
  have hk2 : k = trim ((trim raw).takeWhile (fun c => c != '=')) := hkey.symm
  refine ⟨⟨pre, raw, post, hsplit, hp, hg, hk2⟩, ?_, ?_⟩
  · rw [hk2]
    exact hhead
  · rw [hk2]
    exact hlast

theorem IniParser.stored_key_is_trimmed_key_text_witness :
    (∃ pre raw post, getlines "[S]\n= v\n".toList = pre ++ raw :: post ∧
      isPairLine (trim raw) = true ∧ governingHeader pre = some "S".toList ∧
      ([] : Str) = trim ((trim raw).takeWhile (fun c => c != '='))) ∧
    (∀ a, ([] : Str).head? = some a → isBlank a = false) ∧
    (∀ b, ([] : Str).getLast? = some b → isBlank b = false) :=
  IniParser.stored_key_is_trimmed_key_text "[S]\n= v\n".toList
    [("S".toList, [([], "v".toList)])] "S".toList [] "v".toList [([], "v".toList)]
    (by decide) (by decide) (by decide)

/-! ### Which raw values `stoi` accepts whole -/

theorem stoi_append_space (ws X : Str) (hws : ∀ c ∈ ws, isspace c = true)
    (hX : ∀ c, X.head? = some c → isspace c = false) :
    stoi (ws ++ X) =
      match stoi X with
      | .error e => .error e
      | .ok (n, p) => .ok (n, ws.length + p) := by
  have h1 : (ws ++ X).dropWhile isspace = X := dropWhile_append_stop isspace ws X hws hX
  have h2 : X.dropWhile isspace = X := dropWhile_append_stop isspace [] X (by simp) hX
  unfold stoi
  simp only [h1, h2]
  have hlen : ∀ s2 : Str, s2.length ≤ X.length → ∀ d : Nat,
      (ws ++ X).length - s2.length + d = ws.length + (X.length - s2.length + d) := by
    intro s2 hs d
    rw [List.length_append]
    omega
  generalize hs2 :
    (if (X.head? == some '-' || X.head? == some '+') = true then X.tail else X) = s2
  have hle : s2.length ≤ X.length := by
    rw [← hs2]
    split_ifs <;> simp
  split_ifs <;> simp only [Except.ok.injEq, Prod.mk.injEq, true_and]
  all_goals exact hlen s2 hle _

theorem takeWhile_eq_self_of_length (p : Char → Bool) (l : Str)
    (h : (l.takeWhile p).length = l.length) : l.takeWhile p = l := by
  have h1 := List.takeWhile_append_dropWhile p l
  have h2 : (l.dropWhile p).length = 0 := by
    have := congrArg List.length h1
    rw [List.length_append] at this
    omega
  rw [List.length_eq_zero] at h2
  rw [h2, List.append_nil] at h1
  exact h1

/-- Every text splits into white space, an optional sign and a rest, and `stoi`
reads the digits at the start of that rest. -/
theorem stoi_normal_form (raw : Str) :
    ∃ ws sign s2, raw = ws ++ sign ++ s2 ∧ (∀ c ∈ ws, isspace c = true) ∧
      (sign = [] ∨ sign = ['-'] ∨ sign = ['+']) ∧
      stoi raw =
        if (s2.takeWhile isdigit).isEmpty then .error .invalid_argument
        else if literalValue sign (s2.takeWhile isdigit) < INT_MIN ∨
            INT_MAX < literalValue sign (s2.takeWhile isdigit) then .error .out_of_range
        else .ok (literalValue sign (s2.takeWhile isdigit),
          ws.length + sign.length + (s2.takeWhile isdigit).length) := by
  have hsplit := List.takeWhile_append_dropWhile isspace raw
  have hws : ∀ c ∈ raw.takeWhile isspace, isspace c = true :=
    fun c hc => List.mem_takeWhile_imp hc
  have hlen : raw.length = (raw.takeWhile isspace).length + (raw.dropWhile isspace).length := by
    conv_lhs => rw [← hsplit]
    rw [List.length_append]
  cases hs1 : raw.dropWhile isspace with
  | nil =>
    refine ⟨raw.takeWhile isspace, [], [], by simpa [hs1] using hsplit.symm, hws, Or.inl rfl, ?_⟩
    unfold stoi
    simp [hs1]
  | cons c r =>
    rw [hs1] at hsplit hlen
    simp only [List.length_cons] at hlen
    by_cases hm : c = '-'
    · subst hm
      refine ⟨raw.takeWhile isspace, ['-'], r, by simpa using hsplit.symm, hws,
        Or.inr (Or.inl rfl), ?_⟩
      unfold stoi
      simp only [hs1]
      have e1 : raw.length - r.length = (raw.takeWhile isspace).length + 1 := by omega
      simp [literalValue, e1]
    · by_cases hp : c = '+'
      · subst hp
        refine ⟨raw.takeWhile isspace, ['+'], r, by simpa using hsplit.symm, hws,
          Or.inr (Or.inr rfl), ?_⟩
        unfold stoi
        simp only [hs1]
        have e1 : raw.length - r.length = (raw.takeWhile isspace).length + 1 := by omega
        simp [literalValue, e1]
      · refine ⟨raw.takeWhile isspace, [], c :: r, by simpa using hsplit.symm, hws,
          Or.inl rfl, ?_⟩
        unfold stoi
        simp only [hs1]
        have e1 : raw.length - (r.length + 1) = (raw.takeWhile isspace).length := by
          omega
        simp [literalValue, e1, hm, hp]

/-- The raw values that `convert_value<int>` accepts, and what it returns. -/
theorem IniParser.convert_value_int_ok_iff {F : Type} (strtod : Str → StrtodResult F)
    (raw : Str) (n : Int) :
    IniParser.convert_value strtod .int raw = .ok n ↔
      (isSpacedIntLiteral raw n ∧ INT_MIN ≤ n ∧ n ≤ INT_MAX) := by
  constructor
  · intro h
    obtain ⟨ws, sign, s2, hraw, hws, hsign, hst⟩ := stoi_normal_form raw
    unfold IniParser.convert_value at h
    simp only [hst] at h
    by_cases he : (s2.takeWhile isdigit).isEmpty = true
    · simp [he] at h
    by_cases hr : literalValue sign (s2.takeWhile isdigit) < INT_MIN ∨
        INT_MAX < literalValue sign (s2.takeWhile isdigit)
    · simp [he, hr] at h
    by_cases hp : ws.length + sign.length + (s2.takeWhile isdigit).length = raw.length
    · simp only [he, hr, hp, if_false, ne_eq, not_true_eq_false, Except.ok.injEq,
        Bool.false_eq_true] at h
      have hlen : (s2.takeWhile isdigit).length = s2.length := by
        rw [hraw, List.length_append, List.length_append] at hp
        omega
      have htw := takeWhile_eq_self_of_length isdigit s2 hlen
      rw [htw] at h he hr
      refine ⟨⟨ws, sign, s2, hraw, hws, hsign, ?_, ?_, h⟩, ?_, ?_⟩
      · intro h0
        simp [h0] at he
      · intro d hd
        rw [← htw] at hd
        exact List.mem_takeWhile_imp hd
      · rw [← h]; omega
      · rw [← h]; omega
    · simp [he, hr, hp] at h
  · rintro ⟨⟨ws, sign, digits, hraw, hws, hsign, hne, hdig, hval⟩, hlo, hhi⟩
    have hst := stoi_sign_digits sign digits [] hsign hne hdig (by simp)
    rw [hval, if_neg (by omega), List.append_nil] at hst
    have hhead : ∀ c, (sign ++ digits).head? = some c → isspace c = false := by
      obtain ⟨d, ds, rfl⟩ := List.exists_cons_of_ne_nil hne
      have hd := isdigit_not_isspace d (hdig d (List.mem_cons_self _ _))
      intro c hc
      rcases hsign with rfl | rfl | rfl
      · simp only [List.nil_append, List.head?_cons, Option.some.injEq] at hc
        rw [← hc]
        exact hd
      · simp only [List.cons_append, List.head?_cons, Option.some.injEq] at hc
        rw [← hc]
        decide
      · simp only [List.cons_append, List.head?_cons, Option.some.injEq] at hc
        rw [← hc]
        decide
    have hall := stoi_append_space ws (sign ++ digits) hws hhead
    rw [hst] at hall
    simp only at hall
    unfold IniParser.convert_value
    rw [hraw, List.append_assoc, hall]
    simp [List.length_append, Nat.add_assoc]

/-- C18 (counterexample): the raw values `\r12`, `\x0b12` and `\x0c12`, which
trimming leaves as they are, are accepted by `get_value<int>` and give 12. -/
theorem IniParser.get_value_int_accepts_leading_space :
    IniParser.parse_file "[S]\na =\r12\nb =\x0b12\nc =\x0c12\n".toList =
        .ok [("S".toList, [("a".toList, "\r12".toList), ("b".toList, "\x0b12".toList),
          ("c".toList, "\x0c12".toList)])] ∧
      IniParser.get_value strtod_none
          [("S".toList, [("a".toList, "\r12".toList), ("b".toList, "\x0b12".toList),
            ("c".toList, "\x0c12".toList)])] .int "S".toList "a".toList = .ok 12 ∧
      IniParser.get_value strtod_none
          [("S".toList, [("a".toList, "\r12".toList), ("b".toList, "\x0b12".toList),
            ("c".toList, "\x0c12".toList)])] .int "S".toList "b".toList = .ok 12 ∧
      IniParser.get_value strtod_none
          [("S".toList, [("a".toList, "\r12".toList), ("b".toList, "\x0b12".toList),
            ("c".toList, "\x0c12".toList)])] .int "S".toList "c".toList = .ok 12 := by
  refine ⟨by decide, by decide, by decide, by decide⟩

/-- C18 (amended): `get_value<int>` succeeds on a raw value exactly when that
value is a possibly empty run of the white-space characters that `stoi` skips,
then an optional sign, then one or more decimal digits and nothing else,
denoting a number of the 32-bit signed range, and it then returns that number. -/
theorem IniParser.get_value_int_succeeds_iff {F : Type} (strtod : Str → StrtodResult F)
    (data : Data) (s k raw : Str) (n : Int)
    (hraw : Data.raw data s k = some raw) :
    IniParser.get_value strtod data .int s k = .ok n ↔
      (isSpacedIntLiteral raw n ∧ INT_MIN ≤ n ∧ n ≤ INT_MAX) := by
  rw [IniParser.get_value_of_raw strtod data .int s k raw hraw]
  exact IniParser.convert_value_int_ok_iff strtod raw n

theorem IniParser.get_value_int_succeeds_iff_witness :
    IniParser.get_value strtod_none [("S".toList, [("k".toList, "\r-12".toList)])]
        .int "S".toList "k".toList = .ok (-12) ↔
      (isSpacedIntLiteral "\r-12".toList (-12) ∧ INT_MIN ≤ -12 ∧ (-12 : Int) ≤ INT_MAX) :=
  IniParser.get_value_int_succeeds_iff strtod_none
    [("S".toList, [("k".toList, "\r-12".toList)])] "S".toList "k".toList "\r-12".toList (-12)
    (by decide)
